import Mathlib

/-!
Verification of the core of `strapi-plugin-ai-translator`.

Shallow embedding of the plugin's server core:
* `src/server/utils/segments.ts` — segment walker (`collectTranslatableSegments`),
  merger (`applySegmentTranslations`), sanitizer (`stripComponentInstanceIds`),
  `extractLocalizedTopLevelFields`, `extractTopLevelMediaFields`;
* `src/server/utils/translation-cache.ts` — `buildTranslationCacheHash`,
  `getCachedTranslations`, `setCachedTranslations`, `clearTranslationCache`;
* `src/server/services/translate.ts` — `chunkSegments`, `normalizeMaxChunks`,
  `translateDocumentProgressInternal` and its two entry points.

Documents are modelled as JSON trees (`JValue`): JavaScript objects are
association lists of string keys in insertion order (JS object keys are unique;
the embedding's record-update helper `recSet` mirrors JS assignment: it
overwrites the value at the existing key position, else appends).  A JS
assignment of `undefined` to a missing key is modelled as a no-op, matching the
JSON view of the data that crosses the plugin's HTTP boundary.  JS strings
are modelled as Lean strings (Unicode scalar sequences).
-/

set_option maxRecDepth 8192

namespace AiTranslate

/-- JSON-like runtime value (the `unknown` data the plugin walks). -/
inductive JValue where
  | str (s : String)
  | num (n : Int)
  | bool (b : Bool)
  | null
  | arr (items : List JValue)
  | obj (fields : List (String × JValue))

/-- One step of a `Path` (`string | number` in the source). Array indices are
natural numbers (the walker only ever produces `forEach` indices). -/
inductive PathStep where
  | key (k : String)
  | idx (n : Nat)
deriving DecidableEq, Repr

/-- `Path` from `segments.ts`. -/
abbrev Path := List PathStep

/-- `Segment` from `segments.ts`. -/
structure Segment where
  id : String
  path : Path
  text : String
deriving DecidableEq, Repr

/-- First-match lookup in an association list: JS property read `o[k]`
(missing key reads as `undefined`, i.e. `none`). -/
def jget (fields : List (String × JValue)) (k : String) : Option JValue :=
  match fields with
  | [] => none
  | p :: rest => if p.1 = k then some p.2 else jget rest k

/-- Generic JS object assignment `o[k] = v` on an association list: replaces
the value at the (unique) key's position if present, else appends the key. -/
def recSet {α : Type} (l : List (String × α)) (k : String) (v : α) :
    List (String × α) :=
  match l with
  | [] => [(k, v)]
  | p :: rest => if p.1 = k then (k, v) :: rest else p :: recSet rest k v

/-- First-match lookup in a string association list (JS record read). -/
def recGet {α : Type} (l : List (String × α)) (k : String) : Option α :=
  match l with
  | [] => none
  | p :: rest => if p.1 = k then some p.2 else recGet rest k

theorem recGet_recSet_self {α : Type} (l : List (String × α)) (k : String) (v : α) :
    recGet (recSet l k v) k = some v := by
  induction l with
  | nil => simp [recSet, recGet]
  | cons p rest ih =>
    by_cases h : p.1 = k
    · simp [recSet, recGet, h]
    · simp [recSet, recGet, h, ih]

theorem recGet_recSet_other {α : Type} (l : List (String × α)) (k k' : String)
    (v : α) (hne : k' ≠ k) : recGet (recSet l k v) k' = recGet l k' := by
  induction l with
  | nil =>
    have h1 : ¬ (k = k') := fun hc => hne hc.symm
    simp [recSet, recGet, h1]
  | cons p rest ih =>
    by_cases h : p.1 = k
    · have h1 : ¬ (k = k') := fun hc => hne hc.symm
      have h2 : ¬ (p.1 = k') := by rw [h]; exact h1
      simp [recSet, recGet, h, h1, h2]
    · by_cases h' : p.1 = k'
      · simp [recSet, recGet, h, h', hne]
      · simp [recSet, recGet, h, h', ih]

theorem recSet_recGet_self {α : Type} {l : List (String × α)} {k : String} {v : α}
    (h : recGet l k = some v) : recSet l k v = l := by
  induction l with
  | nil => simp [recGet] at h
  | cons p rest ih =>
    by_cases hk : p.1 = k
    · simp only [recGet, if_pos hk] at h
      injection h with h
      obtain ⟨pk, pv⟩ := p
      simp only at hk
      subst hk
      subst h
      simp [recSet]
    · simp only [recGet] at h
      rw [if_neg hk] at h
      simp [recSet, hk, ih h]

theorem sizeOf_jget {fields : List (String × JValue)} {k : String} {v : JValue}
    (h : jget fields k = some v) : sizeOf v < sizeOf fields := by
  induction fields with
  | nil => simp [jget] at h
  | cons p rest ih =>
    obtain ⟨pk, pv⟩ := p
    by_cases hk : pk = k
    · simp only [jget, hk, if_pos] at h
      injection h with h
      subst h
      simp only [List.cons.sizeOf_spec, Prod.mk.sizeOf_spec]
      omega
    · simp only [jget] at h
      rw [if_neg hk] at h
      have := ih h
      simp only [List.cons.sizeOf_spec]
      omega

/-! ## Schema model (`segments.ts` types)

An `Attribute` carries its kind and the `pluginOptions.i18n.localized === true`
flag.  All non-component scalar kinds from the source union are enumerated so
the `default` branches of the source `switch` statements are modelled exactly. -/

/-- Scalar attribute kinds of `segments.ts` (the first branch of the union). -/
inductive ScalarType where
  | string | text | richtext | blocks | json | uid | email | enumeration
  | boolean | integer | biginteger | float | decimal | date | datetime | time
  | media | relation
deriving DecidableEq, Repr

/-- `Attribute` from `segments.ts`. -/
inductive Attribute where
  | scalar (t : ScalarType) (localized : Bool)
  | component (component : String) (repeatable : Bool) (localized : Bool)
  | dynamiczone (components : List String) (localized : Bool)
deriving DecidableEq, Repr

/-- `isAttributeLocalized` (`attribute?.pluginOptions?.i18n?.localized === true`). -/
def isAttributeLocalized : Attribute → Bool
  | .scalar _ l => l
  | .component _ _ l => l
  | .dynamiczone _ l => l

/-- `Schema` from `segments.ts`: `localized` models
`schema.pluginOptions?.i18n?.localized === true`; `attributes` is `none` when
the optional `attributes` record is absent (the source distinguishes a missing
`attributes` from an empty one in `componentSchema?.attributes` checks). -/
structure Schema where
  localized : Bool := false
  attributes : Option (List (String × Attribute)) := none

/-- `ComponentsDictionary`. -/
abbrev ComponentsDictionary := List (String × Schema)

/-- `schema.attributes ?? {}`. -/
def schemaAttrs (s : Schema) : List (String × Attribute) :=
  s.attributes.getD []

/-- `components[uid]`. -/
def lookupComponent (comps : ComponentsDictionary) (uid : String) : Option Schema :=
  recGet comps uid

/-- `extractLocalizedTopLevelFields` from `segments.ts`. -/
def extractLocalizedTopLevelFields (schema : Schema)
    (data : List (String × JValue)) : List (String × JValue) :=
  (schemaAttrs schema).foldl
    (fun acc p =>
      if isAttributeLocalized p.2 then
        match jget data p.1 with
        | some v => recSet acc p.1 v
        | none => acc
      else acc)
    []

/-- `extractTopLevelMediaFields` from `segments.ts` (`part_002`): top-level
`media` attributes present in the data, regardless of the localized flag. -/
def extractTopLevelMediaFields (schema : Schema)
    (data : List (String × JValue)) : List (String × JValue) :=
  (schemaAttrs schema).foldl
    (fun acc p =>
      match p.2 with
      | .scalar .media _ =>
        match jget data p.1 with
        | some v => recSet acc p.1 v
        | none => acc
      | _ => acc)
    []

/-! ## Segment walker (`collectTranslatableSegments`)

The source assigns ids `String(nextId)` in push order; the embedding first
collects the ordered `(path, text)` pairs and then numbers them, which yields
the same segment list.  `forEach` loops with indices become explicit helper
recursions carrying the index. -/

/-- `pushSegment`: drops text that is empty after trimming. -/
def pushSeg (path : Path) (text : String) : List (Path × String) :=
  if text.trim.length = 0 then [] else [(path, text)]

/-- `value === null` (JSON `null`; `undefined` is `Option.none` at call sites). -/
def isNullJ : JValue → Bool
  | .null => true
  | _ => false

mutual

/-- `walkBlocks` from `collectTranslatableSegments`. -/
def walkBlocks (value : JValue) (basePath : Path) : List (Path × String) :=
  match value with
  | .str _ => []
  | .arr items => walkBlocksItems items 0 basePath
  | .obj fields => walkBlocksFields fields basePath
  | _ => []
termination_by (sizeOf value, 1)

/-- `value.forEach((item, index) => walkBlocks(item, [...basePath, index]))`. -/
def walkBlocksItems (items : List JValue) (i : Nat) (basePath : Path) :
    List (Path × String) :=
  match items with
  | [] => []
  | item :: rest =>
    walkBlocks item (basePath ++ [.idx i]) ++ walkBlocksItems rest (i + 1) basePath
termination_by (sizeOf items, 0)

/-- entry loop of `walkBlocks` over a plain object's fields. -/
def walkBlocksFields (fields : List (String × JValue)) (basePath : Path) :
    List (Path × String) :=
  match fields with
  | [] => []
  | (k, .str s) :: rest =>
    (if k = "text" then pushSeg (basePath ++ [.key k]) s
     else walkBlocks (.str s) (basePath ++ [.key k]))
      ++ walkBlocksFields rest basePath
  | (k, child) :: rest =>
    walkBlocks child (basePath ++ [.key k]) ++ walkBlocksFields rest basePath
termination_by (sizeOf fields, 0)

end

mutual

/-- `walkJson` from `collectTranslatableSegments`. -/
def walkJson (value : JValue) (basePath : Path) : List (Path × String) :=
  match value with
  | .str s => pushSeg basePath s
  | .arr items => walkJsonItems items 0 basePath
  | .obj fields => walkJsonFields fields basePath
  | _ => []
termination_by (sizeOf value, 1)

/-- `value.forEach((item, index) => walkJson(item, [...basePath, index]))`. -/
def walkJsonItems (items : List JValue) (i : Nat) (basePath : Path) :
    List (Path × String) :=
  match items with
  | [] => []
  | item :: rest =>
    walkJson item (basePath ++ [.idx i]) ++ walkJsonItems rest (i + 1) basePath
termination_by (sizeOf items, 0)

/-- entry loop of `walkJson` over a plain object's fields. -/
def walkJsonFields (fields : List (String × JValue)) (basePath : Path) :
    List (Path × String) :=
  match fields with
  | [] => []
  | (k, child) :: rest =>
    walkJson child (basePath ++ [.key k]) ++ walkJsonFields rest basePath
termination_by (sizeOf fields, 0)

end

/-- the `walkMediaItem` closure of the `media` case: emits
`alternativeText` then `caption` when they are strings. -/
def walkMediaItem (item : JValue) (itemPath : Path) : List (Path × String) :=
  match item with
  | .obj fields =>
    (match jget fields "alternativeText" with
     | some (.str s) => pushSeg (itemPath ++ [.key "alternativeText"]) s
     | _ => []) ++
    (match jget fields "caption" with
     | some (.str s) => pushSeg (itemPath ++ [.key "caption"]) s
     | _ => [])
  | _ => []

/-- media `forEach((item, index) => walkMediaItem(item, [...path, index]))`. -/
def walkMediaItems (items : List JValue) (i : Nat) (basePath : Path) :
    List (Path × String) :=
  match items with
  | [] => []
  | item :: rest =>
    walkMediaItem item (basePath ++ [.idx i]) ++ walkMediaItems rest (i + 1) basePath

/-- the `media` case body of `walkByAttribute`: array of items, a
`{data: reference | [references]}` envelope, or a bare reference. -/
def walkMediaValue (value : JValue) (basePath : Path) : List (Path × String) :=
  match value with
  | .arr items => walkMediaItems items 0 basePath
  | .obj fields =>
    match jget fields "data" with
    | some (.arr nested) => walkMediaItems nested 0 (basePath ++ [.key "data"])
    | some nested => walkMediaItem nested (basePath ++ [.key "data"])
    | none => walkMediaItem (.obj fields) basePath
  | _ => walkMediaItem value basePath

mutual

/-- `walkByAttribute` from `collectTranslatableSegments` (the `part_002`
version, including the `media` case).  `none` stands for the
`value === null || value === undefined` early return; callers pass `JValue.null`
for JSON `null`. -/
def walkByAttribute (includeJson : Bool) (comps : ComponentsDictionary)
    (attr : Attribute) (value : JValue) (basePath : Path) : List (Path × String) :=
  if isNullJ value then []
  else
    match attr with
    | .scalar .string _ | .scalar .text _ | .scalar .richtext _ =>
      match value with
      | .str s => pushSeg basePath s
      | _ => []
    | .scalar .blocks _ => walkBlocks value basePath
    | .scalar .json _ => if includeJson then walkJson value basePath else []
    | .scalar .media _ => walkMediaValue value basePath
    | .component uid repeatable _ =>
      match lookupComponent comps uid with
      | some cschema =>
        match cschema.attributes with
        | some _ =>
          if repeatable then
            match value with
            | .arr items => walkCompItems includeJson comps cschema items 0 basePath
            | _ => []
          else
            walkSchema includeJson comps cschema value basePath
        | none => []
      | none => []
    | .dynamiczone _ _ =>
      match value with
      | .arr items => walkDZItems includeJson comps items 0 basePath
      | _ => []
    | .scalar _ _ => []
termination_by (sizeOf value, 3, 0)

/-- repeatable-component `forEach((item, index) => walkSchema(...))`. -/
def walkCompItems (includeJson : Bool) (comps : ComponentsDictionary)
    (cschema : Schema) (items : List JValue) (i : Nat) (basePath : Path) :
    List (Path × String) :=
  match items with
  | [] => []
  | item :: rest =>
    walkSchema includeJson comps cschema item (basePath ++ [.idx i]) ++
      walkCompItems includeJson comps cschema rest (i + 1) basePath
termination_by (sizeOf items, 2, 0)

/-- dynamiczone `forEach`: resolve each item's `__component` discriminator. -/
def walkDZItems (includeJson : Bool) (comps : ComponentsDictionary)
    (items : List JValue) (i : Nat) (basePath : Path) : List (Path × String) :=
  match items with
  | [] => []
  | item :: rest =>
    (match item with
     | .obj fields =>
       match jget fields "__component" with
       | some (.str uid) =>
         match lookupComponent comps uid with
         | some cschema =>
           match cschema.attributes with
           | some _ => walkSchema includeJson comps cschema (.obj fields) (basePath ++ [.idx i])
           | none => []
         | none => []
       | _ => []
     | _ => []) ++
      walkDZItems includeJson comps rest (i + 1) basePath
termination_by (sizeOf items, 2, 0)

/-- `walkSchema` from `collectTranslatableSegments`. -/
def walkSchema (includeJson : Bool) (comps : ComponentsDictionary)
    (currentSchema : Schema) (value : JValue) (basePath : Path) :
    List (Path × String) :=
  match value with
  | .obj fields => walkSchemaAttrs includeJson comps (schemaAttrs currentSchema) fields basePath
  | _ => []
termination_by (sizeOf value, 2, 0)

/-- entry loop of `walkSchema`: walk each schema attribute against the
object's field of the same name (`undefined` fields return immediately in
`walkByAttribute`). -/
def walkSchemaAttrs (includeJson : Bool) (comps : ComponentsDictionary)
    (attrs : List (String × Attribute)) (fields : List (String × JValue))
    (basePath : Path) : List (Path × String) :=
  match attrs with
  | [] => []
  | (key, attr) :: rest =>
    (match h : jget fields key with
     | some child => walkByAttribute includeJson comps attr child (basePath ++ [.key key])
     | none => []) ++
      walkSchemaAttrs includeJson comps rest fields basePath
termination_by (sizeOf fields, 1, sizeOf attrs)
decreasing_by
  all_goals
    first
      | exact Prod.Lex.left _ _ (sizeOf_jget h)
      | (apply Prod.Lex.right
         apply Prod.Lex.right
         simp +arith)

end

/-- `collectTranslatableSegments` (the `part_002` version): walk the localized
top-level attributes, then number the pushed segments in push order
(`id = String(nextId)`). -/
def collectTranslatableSegments (schema : Schema) (comps : ComponentsDictionary)
    (localizedData : List (String × JValue)) (includeJson : Bool) : List Segment :=
  let raw := (schemaAttrs schema).foldl
    (fun acc p =>
      if isAttributeLocalized p.2 then
        acc ++
          (match jget localizedData p.1 with
           | some v => walkByAttribute includeJson comps p.2 v [.key p.1]
           | none => [])
      else acc)
    []
  raw.enum.map (fun q => { id := toString q.1, path := q.2.1, text := q.2.2 })

/-! ## Segment merger (`applySegmentTranslations`)

The source clones the tree (`structuredClone`) and mutates the clone.  In the
pure embedding the clone is the value itself and the in-place write along a
path becomes a recursive rebuild (`applyAtPath`); the documents handled by the
plugin are JSON trees without internal sharing, where the two coincide. -/

/-- `getChild` from `applySegmentTranslations`: array read with a numeric key,
plain-object read with a string key, otherwise `undefined`. -/
def getChild (container : JValue) (k : PathStep) : Option JValue :=
  match container, k with
  | .arr items, .idx n => items.get? n
  | .obj fields, .key s => jget fields s
  | _, _ => none

/-- JS array element assignment `a[n] = v`: in range it overwrites; past the
end it extends the array (the holes of the resulting sparse array read back as
`null` in the JSON view of the data). -/
def listSetPad (items : List JValue) (n : Nat) (v : JValue) : List JValue :=
  if n < items.length then items.set n v
  else items ++ List.replicate (n - items.length) JValue.null ++ [v]

/-- `setChild` from `applySegmentTranslations`; a container/key kind mismatch
returns the container unchanged (the source returns `false` and writes
nothing). -/
def setChild (container : JValue) (k : PathStep) (v : JValue) : JValue :=
  match container, k with
  | .arr items, .idx n => .arr (listSetPad items n v)
  | .obj fields, .key s => .obj (recSet fields s v)
  | c, _ => c

/-- resolve a whole path by iterated `getChild` (used to state where the
merge-loop's parent walk succeeds). -/
def getPath (v : JValue) (path : Path) : Option JValue :=
  match path with
  | [] => some v
  | k :: rest =>
    match getChild v k with
    | some c => getPath c rest
    | none => none

/-- the body of the merge loop for one segment with translation `t`: walk to
the parent of `path`, then `setChild` its last step; an empty path writes
nothing (`path[-1]` is `undefined`, so `setChild` fails), and a prefix step
that does not resolve leaves the tree unchanged (the `continue`). -/
def applyAtPath (d : JValue) (path : Path) (t : String) : JValue :=
  match path with
  | [] => d
  | [k] => setChild d k (.str t)
  | k :: rest =>
    match getChild d k with
    | some c => setChild d k (applyAtPath c rest t)
    | none => d

/-- one iteration of the `for (const segment of segments)` loop:
`typeof translated !== 'string'` (no entry in the map) skips the segment. -/
def applyOne (translationsById : List (String × String)) (d : JValue)
    (seg : Segment) : JValue :=
  match recGet translationsById seg.id with
  | some t => applyAtPath d seg.path t
  | none => d

/-- `applySegmentTranslations` from `segments.ts`. -/
def applySegmentTranslations (localizedData : JValue) (segments : List Segment)
    (translationsById : List (String × String)) : JValue :=
  segments.foldl (applyOne translationsById) localizedData

/-! ## Identity sanitizer (`stripComponentInstanceIds`, from `part_002`)

The source iterates the schema attributes and reassigns
`cloned[key] = stripByAttribute(attribute, cloned[key])`; since JS object keys
are unique this equals mapping over the object's fields, stripping each field
whose key has an attribute (fields without one, and schema attributes whose
key is absent from the object, are untouched — assigning `undefined` to a
missing key is the JSON-level no-op). -/

theorem sizeOf_filter_le {α : Type} [SizeOf α] (p : α → Bool) (l : List α) :
    sizeOf (l.filter p) ≤ sizeOf l := by
  induction l with
  | nil => simp [List.filter]
  | cons a rest ih =>
    rw [List.filter_cons]
    by_cases h : p a
    · simp only [h, if_pos]
      simp only [List.cons.sizeOf_spec]
      omega
    · simp only [h, Bool.false_eq_true, if_false]
      simp only [List.cons.sizeOf_spec]
      omega

/-- `keysToRemove` of `stripComponentValue`. -/
def instanceKeys : List String :=
  ["id", "createdAt", "updatedAt", "publishedAt", "createdBy", "updatedBy"]

/-- the `delete cloned[key]` loop over `keysToRemove`. -/
def removeInstanceKeys (fields : List (String × JValue)) : List (String × JValue) :=
  fields.filter (fun p => !(instanceKeys.contains p.1))

mutual

/-- `stripByAttribute` from `stripComponentInstanceIds`. -/
def stripByAttribute (comps : ComponentsDictionary) (attr : Attribute)
    (value : JValue) : JValue :=
  if isNullJ value then value
  else
    match attr with
    | .component uid repeatable _ =>
      match lookupComponent comps uid with
      | some cschema =>
        match cschema.attributes with
        | some _ =>
          if repeatable then
            match value with
            | .arr items => .arr (stripCompItems comps cschema items)
            | v => v
          else stripComponentValue comps cschema value
        | none => value
      | none => value
    | .dynamiczone _ _ =>
      match value with
      | .arr items => .arr (stripDZItems comps items)
      | v => v
    | .scalar _ _ => value
termination_by (sizeOf value, 3, 0)

/-- repeatable case `value.map((item) => stripComponentValue(...))`. -/
def stripCompItems (comps : ComponentsDictionary) (cschema : Schema)
    (items : List JValue) : List JValue :=
  match items with
  | [] => []
  | item :: rest =>
    stripComponentValue comps cschema item :: stripCompItems comps cschema rest
termination_by (sizeOf items, 2, 0)

/-- dynamiczone case: strip items whose `__component` resolves to a schema
with attributes, return the rest unchanged. -/
def stripDZItems (comps : ComponentsDictionary) (items : List JValue) :
    List JValue :=
  match items with
  | [] => []
  | item :: rest =>
    (match item with
     | .obj fields =>
       match jget fields "__component" with
       | some (.str uid) =>
         match lookupComponent comps uid with
         | some cschema =>
           match cschema.attributes with
           | some _ => stripComponentValue comps cschema (.obj fields)
           | none => .obj fields
         | none => .obj fields
       | _ => .obj fields
     | other => other) :: stripDZItems comps rest
termination_by (sizeOf items, 2, 0)

/-- `stripComponentValue`: drop the six instance-identity keys from the
component object, then strip each remaining field by its attribute. -/
def stripComponentValue (comps : ComponentsDictionary) (cschema : Schema)
    (value : JValue) : JValue :=
  match value with
  | .obj fields =>
    .obj (stripFields comps (schemaAttrs cschema) (removeInstanceKeys fields))
  | v => v
termination_by (sizeOf value, 1, 0)
decreasing_by
  apply Prod.Lex.left
  have := sizeOf_filter_le (fun p => !(instanceKeys.contains p.1)) fields
  simp only [removeInstanceKeys, JValue.obj.sizeOf_spec]
  omega

/-- the `cloned[key] = stripByAttribute(attribute, cloned[key])` loop, as a
map over the (post-deletion) fields. -/
def stripFields (comps : ComponentsDictionary) (attrs : List (String × Attribute))
    (fields : List (String × JValue)) : List (String × JValue) :=
  match fields with
  | [] => []
  | (k, x) :: rest =>
    (k,
      match recGet attrs k with
      | some a => stripByAttribute comps a x
      | none => x) :: stripFields comps attrs rest
termination_by (sizeOf fields, 0, 0)

end

/-- `stripComponentInstanceIds` from `part_002`: strip the localized top-level
attributes of the schema (fields without a localized attribute are returned
unchanged). -/
def stripComponentInstanceIds (schema : Schema) (comps : ComponentsDictionary)
    (localizedData : List (String × JValue)) : List (String × JValue) :=
  localizedData.map (fun p =>
    match recGet (schemaAttrs schema) p.1 with
    | some attr =>
      if isAttributeLocalized attr then (p.1, stripByAttribute comps attr p.2)
      else p
    | none => p)

/-! ## Chunker and chunk budget (`translate.ts`) -/

/-- character length of a segment's text (`segment.text.length`). -/
def segLen (s : Segment) : Nat := s.text.length

/-- the loop of `chunkSegments`, with the mutable `chunks`, `current`,
`currentChars` state made explicit. -/
def chunkLoop (maxSegments maxChars : Nat) (segments : List Segment)
    (chunks : List (List Segment)) (current : List Segment) (currentChars : Nat) :
    List (List Segment) :=
  match segments with
  | [] => if current.length > 0 then chunks ++ [current] else chunks
  | seg :: rest =>
    let length := segLen seg
    let wouldOverflow :=
      current.length ≥ maxSegments ∨
        (current.length > 0 ∧ currentChars + length > maxChars)
    if wouldOverflow then
      chunkLoop maxSegments maxChars rest (chunks ++ [current]) [seg] length
    else
      chunkLoop maxSegments maxChars rest chunks (current ++ [seg]) (currentChars + length)

/-- `chunkSegments` from `translate.ts`. -/
def chunkSegments (segments : List Segment) (maxSegments maxChars : Nat) :
    List (List Segment) :=
  chunkLoop maxSegments maxChars segments [] [] 0

/-- a JavaScript `number`-typed runtime value (double): NaN, infinities, or a
finite value, the latter modelled as a rational (`Math.floor` is exact on
doubles). -/
inductive JSNumber where
  | nan
  | posInf
  | negInf
  | finite (x : ℚ)

/-- `normalizeMaxChunks` from `translate.ts`; `none` models a value whose
`typeof` is not `'number'` (e.g. an absent `maxChunks`). -/
def normalizeMaxChunks (value : Option JSNumber) (fallback : Nat) : Nat :=
  match value with
  | some (.finite x) =>
    let rounded := ⌊x⌋
    if rounded ≤ 0 then fallback else min rounded.toNat 10
  | _ => fallback

/-- `Number.MAX_SAFE_INTEGER`, the chunk budget of `translateDocument`. -/
def maxSafeInteger : Nat := 9007199254740991

/-! ## Translation cache (`translation-cache.ts`)

The Strapi plugin store is modelled as a partial map from store keys to stored
JSON values.  `Promise.all` over distinct bucket keys is modelled as a
sequential fold (the iterations touch pairwise distinct keys). -/

/-- `CACHE_VERSION`. -/
def cacheVersion : Nat := 2

/-- `getCacheBucketKey` (`hash.slice(0, 2)`). -/
def getCacheBucketKey (hash : String) : String := hash.take 2

/-- the store key `translation-cache:v<version>:<bucket>` used by
`createCacheBucketStore` / `createCacheBucketStoreForVersion`. -/
def cacheStoreKey (version : Nat) (bucket : String) : String :=
  "translation-cache:v" ++ toString version ++ ":" ++ bucket

/-- the plugin store: a partial map from store keys to stored values. -/
def Store : Type := String → Option JValue

/-- a store with no keys. -/
def emptyStore : Store := fun _ => none

/-- `store.set({value})` at a key. -/
def storeSet (st : Store) (k : String) (v : JValue) : Store :=
  fun q => if q = k then some v else st q

/-- `normalizeCacheBucketValue`: keep only non-empty string values of a plain
object (`none` is an unset store key). -/
def normalizeCacheBucketValue (raw : Option JValue) : List (String × String) :=
  match raw with
  | some (.obj fields) =>
    fields.foldl
      (fun acc p =>
        match p.2 with
        | .str s => if s.length > 0 then recSet acc p.1 s else acc
        | _ => acc)
      []
  | _ => []

/-- a bucket record written back to the store. -/
def encodeBucket (m : List (String × String)) : JValue :=
  .obj (m.map (fun e => (e.1, .str e.2)))

/-- `i.toString(16).padStart(2, '0')`. -/
def hexByte (i : Nat) : String :=
  let s := String.mk (Nat.toDigits 16 i)
  if s.length = 1 then "0" ++ s else s

/-- `getAllBucketKeys`: the 256 two-hex-digit bucket names. -/
def getAllBucketKeys : List String := (List.range 256).map hexByte

/-- `Array.from(new Set(hashes))`: first-occurrence deduplication. -/
def dedupFirst (l : List String) : List String :=
  l.foldl (fun acc h => if acc.contains h then acc else acc ++ [h]) []

/-- insertion-ordered `Map` grouping (`hashesByBucket` / `entriesByBucket`). -/
def groupPush {β : Type} (acc : List (String × List β)) (b : String) (x : β) :
    List (String × List β) :=
  match acc with
  | [] => [(b, [x])]
  | p :: rest => if p.1 = b then (p.1, p.2 ++ [x]) :: rest else p :: groupPush rest b x

/-- `getCachedTranslations` from `translation-cache.ts`. -/
def getCachedTranslations (store : Store) (hashes : List String) :
    List (String × String) :=
  let uniqueHashes := (dedupFirst hashes).filter (fun h => h.length ≥ 2)
  if uniqueHashes.isEmpty then []
  else
    let buckets := uniqueHashes.foldl
      (fun acc h => groupPush acc (getCacheBucketKey h) h) []
    buckets.foldl
      (fun acc p =>
        let bucketValue :=
          normalizeCacheBucketValue (store (cacheStoreKey cacheVersion p.1))
        p.2.foldl
          (fun acc2 h =>
            match recGet bucketValue h with
            | some cached => recSet acc2 h cached
            | none => acc2)
          acc)
      []

/-- `setCachedTranslations` from `translation-cache.ts`; entries are
`(hash, translation)` pairs (the `typeof === 'string'` checks are carried by
the types). -/
def setCachedTranslations (store : Store) (entries : List (String × String)) :
    Store :=
  let validEntries := entries.filter (fun e => e.1.length ≥ 2)
  if validEntries.isEmpty then store
  else
    let buckets := validEntries.foldl
      (fun acc e => groupPush acc (getCacheBucketKey e.1) e) []
    buckets.foldl
      (fun st p =>
        let current := normalizeCacheBucketValue (st (cacheStoreKey cacheVersion p.1))
        let next := p.2.foldl (fun m e => recSet m e.1 e.2) current
        storeSet st (cacheStoreKey cacheVersion p.1) (encodeBucket next))
      store

/-- one bucket step of `clearTranslationCache`: reset the bucket if it holds
data, and count the reset. -/
def clearStep (version : Nat) (acc : Store × Nat) (b : String) : Store × Nat :=
  if (normalizeCacheBucketValue (acc.1 (cacheStoreKey version b))).length > 0 then
    (storeSet acc.1 (cacheStoreKey version b) (.obj []), acc.2 + 1)
  else acc

/-- one version pass of `clearTranslationCache`: reset every bucket of this
version that currently holds data, count the resets. -/
def clearVersionBuckets (store : Store) (version : Nat) : Store × Nat :=
  getAllBucketKeys.foldl (clearStep version) (store, 0)

/-- `clearTranslationCache` from `translation-cache.ts`: returns the updated
store, `clearedBuckets`, and `clearedVersions`. -/
def clearTranslationCache (store : Store) (includePreviousVersions : Option Bool) :
    Store × Nat × Nat :=
  let shouldIncludePreviousVersions := includePreviousVersions ≠ some false
  let versions :=
    if shouldIncludePreviousVersions then (List.range cacheVersion).map (· + 1)
    else [cacheVersion]
  let out := versions.foldl
    (fun acc v =>
      let res := clearVersionBuckets acc.1 v
      (res.1, acc.2 + res.2))
    (store, 0)
  (out.1, out.2, versions.length)

/-! ## Cache hash (`buildTranslationCacheHash`)

`JSON.stringify` of the fixed seven-field record is modelled character by
character (JSON string escaping of `"`, `\` and control characters); the
`node:crypto` SHA-256 hex digest is an external library and enters the
embedding as the `digest` parameter. -/

/-- lowercase hex digit (as in JSON `\u00XX` escapes). -/
def hexDigitChar (n : Nat) : Char :=
  if n < 10 then Char.ofNat (48 + n) else Char.ofNat (87 + n)

/-- JSON string escaping of one character (ECMA-404 / `QuoteJSONString`). -/
def jsonEscapeChar (c : Char) : List Char :=
  if c = '"' then ['\\', '"']
  else if c = '\\' then ['\\', '\\']
  else if c = '\x08' then ['\\', 'b']
  else if c = '\x09' then ['\\', 't']
  else if c = '\x0a' then ['\\', 'n']
  else if c = '\x0c' then ['\\', 'f']
  else if c = '\x0d' then ['\\', 'r']
  else if c.toNat < 32 then
    ['\\', 'u', '0', '0', hexDigitChar (c.toNat / 16), hexDigitChar (c.toNat % 16)]
  else [c]

/-- JSON string body escaping. -/
def jsonEscape (s : String) : String := String.mk (s.data.flatMap jsonEscapeChar)

/-- a JSON string literal. -/
def jsonQuote (s : String) : String := "\"" ++ jsonEscape s ++ "\""

/-- the argument record of `buildTranslationCacheHash`. -/
structure HashParams where
  provider : String
  model : Option String := none
  endpoint : Option String := none
  sourceLocale : String
  targetLocale : String
  prompt : Option String := none
  text : String

/-- the `JSON.stringify({...})` input string of `buildTranslationCacheHash`,
with `prompt`, `model` and `endpoint` normalized (`?? ''` then `.trim()`). -/
def cacheHashInput (p : HashParams) : String :=
  "\x7b\"v\":2,\"provider\":" ++ jsonQuote p.provider ++
  ",\"model\":" ++ jsonQuote (p.model.getD "").trim ++
  ",\"endpoint\":" ++ jsonQuote (p.endpoint.getD "").trim ++
  ",\"sourceLocale\":" ++ jsonQuote p.sourceLocale ++
  ",\"targetLocale\":" ++ jsonQuote p.targetLocale ++
  ",\"prompt\":" ++ jsonQuote (p.prompt.getD "").trim ++
  ",\"text\":" ++ jsonQuote p.text ++ "\x7d"

/-- `buildTranslationCacheHash`, parameterized by the `node:crypto` SHA-256
hex digest (an external library function): it hashes the canonical
serialization of the seven fields. -/
def buildTranslationCacheHashWith (digest : String → String) (p : HashParams) :
    String :=
  digest (cacheHashInput p)

/-! ## Resumable orchestrator (`translate.ts`)

`translateDocumentProgressInternal` is modelled as a pure function over an
environment record.  External collaborators enter as `Env` fields: the merged
settings store, `process.env` overrides, the content-type registry, the
document source, the `node:crypto` digest, and the backend adapter
(`translateSegmentsWithOpenAI` / `translateSegmentsWithReplicate` together
with their network round-trip and parse-recovery, abstracted as the parsed
`{id → text}` map they return).  Side effects are recorded in an ordered
trace, and the cache store is threaded through explicitly. -/

/-- `AiTranslateSettings` (the fields read by `translate.ts`); absent fields
are `none`. -/
structure PluginConfig where
  provider : Option String := none
  apiKey : Option String := none
  apiUrl : Option String := none
  model : Option String := none
  replicateApiToken : Option String := none
  replicateModel : Option String := none

/-- `{...config, ...(stored ?? {})}` of `getPluginConfig`: stored fields
override file-config fields when present. -/
def mergeConfig (config stored : PluginConfig) : PluginConfig where
  provider := stored.provider <|> config.provider
  apiKey := stored.apiKey <|> config.apiKey
  apiUrl := stored.apiUrl <|> config.apiUrl
  model := stored.model <|> config.model
  replicateApiToken := stored.replicateApiToken <|> config.replicateApiToken
  replicateModel := stored.replicateModel <|> config.replicateModel

/-- JS `a || b || ... || d` over possibly-absent strings (empty is falsy). -/
def firstTruthy : List (Option String) → String → String
  | [], d => d
  | none :: rest, d => firstTruthy rest d
  | some s :: rest, d => if s = "" then firstTruthy rest d else s

/-- `normalizeProvider` from `translate.ts`. -/
def normalizeProvider (value : Option String) : Option String :=
  match value with
  | some s =>
    let trimmed := s.trim
    if trimmed = "openai" ∨ trimmed = "replicate" then some trimmed else none
  | none => none

/-- the external collaborators of `translateDocumentProgressInternal`. -/
structure Env where
  configFromFile : PluginConfig := {}
  storedSettings : PluginConfig := {}
  envProvider : Option String := none
  envApiKey : Option String := none
  envApiUrl : Option String := none
  envModel : Option String := none
  envReplicateToken : Option String := none
  envReplicateModel : Option String := none
  contentTypes : List (String × Schema) := []
  components : ComponentsDictionary := []
  documents : String → String → String → Option JValue := fun _ _ _ => none
  digest : String → String := id
  translateChunk : String → Option String → List Segment → List (String × String) :=
    fun _ _ _ => []

/-- `getProvider`: env override, then stored/config value, then `'openai'`. -/
def getProvider (env : Env) (config : PluginConfig) : String :=
  ((normalizeProvider env.envProvider).orElse
    (fun _ => normalizeProvider config.provider)).getD "openai"

/-- `getOpenAIModelName`. -/
def getOpenAIModelName (env : Env) (config : PluginConfig) : String :=
  firstTruthy [env.envModel, config.model] "gpt-4o-mini"

/-- the observable side effects of one orchestrator call, in order. -/
inductive Effect where
  | configRead
  | contentTypeGet (uid : String)
  | findOne (uid documentId locale : String)
  | cacheGet (hashes : List String)
  | backendCall (segs : List Segment)
  | cacheSet (entries : List (String × String))
deriving DecidableEq

/-- the input of `translateDocument` / `translateDocumentProgress`; a missing
identifier and an empty string are both falsy in the source's `!uid` checks
and are modelled as `""`. -/
structure TranslateDocumentInput where
  uid : String := ""
  documentId : String := ""
  sourceLocale : String := ""
  targetLocale : String := ""
  customPrompt : Option String := none
  includeJson : Option Bool := none
  maxChunks : Option JSNumber := none

/-- the `TranslateDocumentProgressResult` payload (data plus flattened meta). -/
structure ProgressResult where
  data : List (String × JValue)
  done : Bool
  totalSegments : Nat
  translatedSegments : Nat
  remainingSegments : Nat
  remainingChunks : Nat
  cacheHits : Nat
  cacheWrites : Nat

/-- `{...a, ...b}`. -/
def spreadMerge (a b : List (String × JValue)) : List (String × JValue) :=
  b.foldl (fun acc e => recSet acc e.1 e.2) a

/-- fields of an object value (the typed `Record` view). -/
def jFields : JValue → List (String × JValue)
  | .obj f => f
  | _ => []

/-- mutable state of the chunk-processing loop. -/
structure ChunkLoopState where
  translationsById : List (String × String)
  store : Store
  trace : List Effect
  cacheWrites : Nat

/-- the `for (const chunk of chunksToTranslate)` loop: call the backend,
merge its translations (`Object.assign`), write the newly translated pairs
through to the cache. -/
def runTranslateChunks (env : Env) (targetLocale : String)
    (customPrompt : Option String) (hashById : List (String × String))
    (chunks : List (List Segment)) (st : ChunkLoopState) : ChunkLoopState :=
  match chunks with
  | [] => st
  | chunk :: rest =>
    let result := env.translateChunk targetLocale customPrompt chunk
    let translations' := result.foldl (fun m e => recSet m e.1 e.2) st.translationsById
    let cacheWrites := chunk.filterMap (fun seg =>
      match recGet result seg.id, recGet hashById seg.id with
      | some t, some h => some (h, t)
      | _, _ => none)
    runTranslateChunks env targetLocale customPrompt hashById rest
      { translationsById := translations'
        store := setCachedTranslations st.store cacheWrites
        trace := st.trace ++ [.backendCall chunk, .cacheSet cacheWrites]
        cacheWrites := st.cacheWrites + cacheWrites.length }

/-- the cache-hit partition loop of `translateDocumentProgressInternal`:
returns (pre-resolved translations, cache hits, pending segments). -/
def partitionCached (hashById cachedByHash : List (String × String))
    (segments : List Segment) : List (String × String) × Nat × List Segment :=
  segments.foldl
    (fun acc seg =>
      match recGet hashById seg.id with
      | some h =>
        match recGet cachedByHash h with
        | some cached => (recSet acc.1 seg.id cached, acc.2.1 + 1, acc.2.2)
        | none => (acc.1, acc.2.1, acc.2.2 ++ [seg])
      | none => (acc.1, acc.2.1, acc.2.2 ++ [seg]))
    ([], 0, [])

/-- `translateDocumentProgressInternal` from `translate.ts`. -/
def translateDocumentProgressInternalModel (env : Env) (store : Store)
    (input : TranslateDocumentInput) (maxChunksPerRequest : Nat) :
    Except String ProgressResult × Store × List Effect :=
  if input.uid = "" ∨ input.documentId = "" ∨ input.sourceLocale = "" ∨
      input.targetLocale = "" then
    (.error "缺少参数：uid / documentId / sourceLocale / targetLocale", store, [])
  else if input.sourceLocale = input.targetLocale then
    (.error "sourceLocale 与 targetLocale 不能相同", store, [])
  else
    let pluginConfig := mergeConfig env.configFromFile env.storedSettings
    let provider := getProvider env pluginConfig
    let trace0 := [Effect.configRead, Effect.contentTypeGet input.uid]
    match recGet env.contentTypes input.uid with
    | none => (.error ("找不到内容类型：" ++ input.uid), store, trace0)
    | some schema =>
      if ¬ schema.localized then
        (.error ("内容类型未启用 i18n：" ++ input.uid), store, trace0)
      else
        let comps := env.components
        let traceD := trace0 ++
          [Effect.findOne input.uid input.documentId input.sourceLocale]
        match env.documents input.uid input.documentId input.sourceLocale with
        | some (.obj sourceDocument) =>
          let localizedData := extractLocalizedTopLevelFields schema sourceDocument
          let topLevelMediaFields := extractTopLevelMediaFields schema sourceDocument
          let segments :=
            collectTranslatableSegments schema comps localizedData
              (input.includeJson = some true)
          if segments.isEmpty then
            (.ok
              { data := spreadMerge
                  (stripComponentInstanceIds schema comps localizedData)
                  topLevelMediaFields
                done := true
                totalSegments := 0
                translatedSegments := 0
                remainingSegments := 0
                remainingChunks := 0
                cacheHits := 0
                cacheWrites := 0 }, store, traceD)
          else
            let cacheModel :=
              if provider = "openai" then getOpenAIModelName env pluginConfig
              else firstTruthy [env.envReplicateModel, pluginConfig.replicateModel] ""
            let cacheEndpoint :=
              if provider = "openai" then
                firstTruthy [env.envApiUrl, pluginConfig.apiUrl] ""
              else ""
            let hashById := segments.map (fun seg =>
              (seg.id,
                buildTranslationCacheHashWith env.digest
                  { provider := provider
                    model := some cacheModel
                    endpoint := some cacheEndpoint
                    sourceLocale := input.sourceLocale
                    targetLocale := input.targetLocale
                    prompt := input.customPrompt
                    text := seg.text }))
            let allHashes := hashById.map (fun e => e.2)
            let cachedByHash := getCachedTranslations store allHashes
            let traceG := traceD ++ [Effect.cacheGet allHashes]
            let part := partitionCached hashById cachedByHash segments
            let pendingChunks := chunkSegments part.2.2 50 5000
            let chunksToTranslate := pendingChunks.take maxChunksPerRequest
            let clientCheck : Except String Unit :=
              if chunksToTranslate.isEmpty then .ok ()
              else if provider = "openai" then
                if firstTruthy [env.envApiKey, pluginConfig.apiKey] "" = "" then
                  .error "AI_TRANSLATE_API_KEY 未配置，请在环境变量或插件 Settings 中设置"
                else .ok ()
              else
                if firstTruthy [env.envReplicateToken, pluginConfig.replicateApiToken] "" = "" then
                  .error "AI_TRANSLATE_REPLICATE_API_TOKEN 未配置，请在环境变量或插件 Settings 中设置"
                else if firstTruthy [env.envReplicateModel, pluginConfig.replicateModel] "" = "" then
                  .error "AI_TRANSLATE_REPLICATE_MODEL 未配置，请在环境变量或插件 Settings 中设置"
                else .ok ()
            match clientCheck with
            | .error e => (.error e, store, traceG)
            | .ok _ =>
              let st := runTranslateChunks env input.targetLocale input.customPrompt
                hashById chunksToTranslate
                { translationsById := part.1
                  store := store
                  trace := traceG
                  cacheWrites := 0 }
              let translatedSegmentsCount :=
                segments.countP (fun seg => (recGet st.translationsById seg.id).isSome)
              let remainingSegments := segments.length - translatedSegmentsCount
              let remainingSegmentList :=
                segments.filter (fun seg => (recGet st.translationsById seg.id).isNone)
              let remainingChunks := (chunkSegments remainingSegmentList 50 5000).length
              let translated :=
                jFields (applySegmentTranslations (.obj localizedData) segments
                  st.translationsById)
              (.ok
                { data := spreadMerge
                    (stripComponentInstanceIds schema comps translated)
                    topLevelMediaFields
                  done := remainingSegments = 0
                  totalSegments := segments.length
                  translatedSegments := translatedSegmentsCount
                  remainingSegments := remainingSegments
                  remainingChunks := remainingChunks
                  cacheHits := part.2.1
                  cacheWrites := st.cacheWrites }, st.store, st.trace)
        | _ => (.error "未找到源语言版本，或返回数据格式不正确", store, traceD)

/-- `translateDocument`: the unbounded entry point
(`maxChunksPerRequest = Number.MAX_SAFE_INTEGER`), returning only `data`. -/
def translateDocumentModel (env : Env) (store : Store)
    (input : TranslateDocumentInput) :
    Except String (List (String × JValue)) × Store × List Effect :=
  match translateDocumentProgressInternalModel env store input maxSafeInteger with
  | (res, st, tr) => (res.map (fun r => r.data), st, tr)

/-- `translateDocumentProgress`: the resumable entry point with the clamped
per-call chunk budget. -/
def translateDocumentProgressModel (env : Env) (store : Store)
    (input : TranslateDocumentInput) :
    Except String ProgressResult × Store × List Effect :=
  translateDocumentProgressInternalModel env store input
    (normalizeMaxChunks input.maxChunks 1)

/-! ## Helper lemmas for the merger -/

theorem applyOne_no_translation {m : List (String × String)} {seg : Segment}
    (h : recGet m seg.id = none) (d : JValue) : applyOne m d seg = d := by
  simp [applyOne, h]

theorem applySegmentTranslations_empty_map (d : JValue) (segs : List Segment) :
    applySegmentTranslations d segs [] = d := by
  induction segs generalizing d with
  | nil => rfl
  | cons s rest ih =>
    have h : applyOne [] d s = d := applyOne_no_translation (by simp [recGet]) d
    simp only [applySegmentTranslations, List.foldl_cons, h]
    exact ih d

/-- C1: merging any segment list (in particular one produced by
`collectTranslatableSegments`) with an empty translation map returns the
original localized tree unchanged. -/
theorem C1_merge_with_empty_translation_map_is_identity
    (schema : Schema) (comps : ComponentsDictionary)
    (localizedData : List (String × JValue)) (includeJson : Bool) :
    applySegmentTranslations (.obj localizedData)
      (collectTranslatableSegments schema comps localizedData includeJson) [] =
      .obj localizedData :=
  applySegmentTranslations_empty_map _ _

/-! ## Chunker (C3) -/

/-- cumulative character count of a batch. -/
def chunkCharSum (c : List Segment) : Nat := (c.map segLen).sum

/-- a batch respecting the packing bounds: at most `maxSegments` items and at
most `maxChars` characters unless it is a single oversized segment. -/
def chunkOk (maxSegments maxChars : Nat) (c : List Segment) : Prop :=
  c.length ≤ maxSegments ∧
    (chunkCharSum c ≤ maxChars ∨ (c.length = 1 ∧ maxChars < chunkCharSum c))

theorem chunkOk_singleton {maxSegments maxChars : Nat} (hm : 1 ≤ maxSegments)
    (s : Segment) : chunkOk maxSegments maxChars [s] := by
  constructor
  · simpa using hm
  · by_cases h : chunkCharSum [s] ≤ maxChars
    · exact Or.inl h
    · exact Or.inr ⟨rfl, by omega⟩

theorem chunkLoop_spec (maxSegments maxChars : Nat) (hm : 1 ≤ maxSegments)
    (segments : List Segment) :
    ∀ chunks current chars,
      (∀ c ∈ chunks, chunkOk maxSegments maxChars c) →
      chunkOk maxSegments maxChars current →
      chars = chunkCharSum current →
      (∀ c ∈ chunkLoop maxSegments maxChars segments chunks current chars,
        chunkOk maxSegments maxChars c) ∧
      (chunkLoop maxSegments maxChars segments chunks current chars).flatten =
        chunks.flatten ++ current ++ segments := by
  induction segments with
  | nil =>
    intro chunks current chars hchunks hcur hchars
    simp only [chunkLoop]
    by_cases hlen : current.length > 0
    · rw [if_pos hlen]
      refine ⟨?_, by simp⟩
      intro c hc
      rcases List.mem_append.mp hc with h | h
      · exact hchunks c h
      · rw [List.mem_singleton.mp h]; exact hcur
    · rw [if_neg hlen]
      have : current = [] := List.length_eq_zero.mp (by omega)
      subst this
      exact ⟨hchunks, by simp⟩
  | cons seg rest ih =>
    intro chunks current chars hchunks hcur hchars
    simp only [chunkLoop]
    by_cases hov : current.length ≥ maxSegments ∨
        (current.length > 0 ∧ chars + segLen seg > maxChars)
    · rw [if_pos hov]
      have hchunks' : ∀ c ∈ chunks ++ [current], chunkOk maxSegments maxChars c := by
        intro c hc
        rcases List.mem_append.mp hc with h | h
        · exact hchunks c h
        · rw [List.mem_singleton.mp h]; exact hcur
      have := ih (chunks ++ [current]) [seg] (segLen seg) hchunks'
        (chunkOk_singleton hm seg) (by simp [chunkCharSum])
      refine ⟨this.1, ?_⟩
      rw [this.2]
      simp
    · rw [if_neg hov]
      push_neg at hov
      obtain ⟨hlen, hchars2⟩ := hov
      have hcur' : chunkOk maxSegments maxChars (current ++ [seg]) := by
        constructor
        · simp only [List.length_append, List.length_singleton]
          omega
        · by_cases hemp : current.length = 0
          · have : current = [] := List.length_eq_zero.mp hemp
            subst this
            simpa using (chunkOk_singleton hm seg).2
          · have hle := hchars2 (by omega)
            left
            have : chunkCharSum (current ++ [seg]) = chunkCharSum current + segLen seg := by
              simp [chunkCharSum]
            omega
      have hsum : chars + segLen seg = chunkCharSum (current ++ [seg]) := by
        simp [chunkCharSum, hchars]
      have := ih chunks (current ++ [seg]) (chars + segLen seg) hchunks hcur' hsum
      refine ⟨this.1, ?_⟩
      rw [this.2]
      simp

/-- C3: with positive bounds, every batch produced by `chunkSegments` has at
most `maxSegments` segments and at most `maxChars` cumulative characters
unless it is a single oversized segment (never split, never dropped), and the
concatenation of the batches in order is exactly the input list. -/
theorem C3_chunkSegments_greedy_packing (segments : List Segment)
    (maxSegments maxChars : Nat) (hm : 1 ≤ maxSegments) (_hc : 1 ≤ maxChars) :
    (∀ c ∈ chunkSegments segments maxSegments maxChars,
      c.length ≤ maxSegments ∧
        (chunkCharSum c ≤ maxChars ∨ (c.length = 1 ∧ maxChars < chunkCharSum c))) ∧
    (chunkSegments segments maxSegments maxChars).flatten = segments := by
  have h0 : chunkOk maxSegments maxChars [] := by
    constructor
    · simp
    · left; simp [chunkCharSum]
  have := chunkLoop_spec maxSegments maxChars hm segments [] [] 0
    (by intro c hc; simp at hc) h0 (by simp [chunkCharSum])
  exact ⟨fun c hcm => this.1 c hcm, by simpa [chunkSegments] using this.2⟩

/-- C3 witness: the bounds `maxSegments = 2`, `maxChars = 5` on a concrete
three-segment list, including an oversized segment. -/
theorem C3_chunkSegments_greedy_packing_witness :
    (∀ c ∈ chunkSegments
        [{ id := "0", path := [], text := "ab" },
         { id := "1", path := [], text := "abcdefgh" },
         { id := "2", path := [], text := "xyz" }] 2 5,
      c.length ≤ 2 ∧ (chunkCharSum c ≤ 5 ∨ (c.length = 1 ∧ 5 < chunkCharSum c))) ∧
    (chunkSegments
        [{ id := "0", path := [], text := "ab" },
         { id := "1", path := [], text := "abcdefgh" },
         { id := "2", path := [], text := "xyz" }] 2 5).flatten =
      [{ id := "0", path := [], text := "ab" },
       { id := "1", path := [], text := "abcdefgh" },
       { id := "2", path := [], text := "xyz" }] :=
  C3_chunkSegments_greedy_packing _ 2 5 (by decide) (by decide)

/-! ## Orchestrator preconditions (C7) and chunk budget (C10) -/

/-- C7: both entry points fail with the corresponding precondition error and
produce no side effects (empty effect trace, unchanged store) whenever a
required identifier is missing/empty or the two locales coincide. -/
theorem C7_precondition_validation_fails_fast (env : Env) (store : Store)
    (input : TranslateDocumentInput) :
    ((input.uid = "" ∨ input.documentId = "" ∨ input.sourceLocale = "" ∨
        input.targetLocale = "") →
      translateDocumentProgressModel env store input =
        (.error "缺少参数：uid / documentId / sourceLocale / targetLocale", store, []) ∧
      translateDocumentModel env store input =
        (.error "缺少参数：uid / documentId / sourceLocale / targetLocale", store, [])) ∧
    (input.uid ≠ "" → input.documentId ≠ "" → input.sourceLocale ≠ "" →
      input.targetLocale ≠ "" → input.sourceLocale = input.targetLocale →
      translateDocumentProgressModel env store input =
        (.error "sourceLocale 与 targetLocale 不能相同", store, []) ∧
      translateDocumentModel env store input =
        (.error "sourceLocale 与 targetLocale 不能相同", store, [])) := by
  constructor
  · intro h
    constructor
    · simp only [translateDocumentProgressModel, translateDocumentProgressInternalModel]
      rw [if_pos h]
    · simp only [translateDocumentModel, translateDocumentProgressInternalModel]
      rw [if_pos h]
      rfl
  · intro h1 h2 h3 h4 heq
    have hno : ¬ (input.uid = "" ∨ input.documentId = "" ∨ input.sourceLocale = "" ∨
        input.targetLocale = "") := by
      intro hc
      rcases hc with hc | hc | hc | hc
      · exact h1 hc
      · exact h2 hc
      · exact h3 hc
      · exact h4 hc
    constructor
    · simp only [translateDocumentProgressModel, translateDocumentProgressInternalModel]
      rw [if_neg hno, if_pos heq]
    · simp only [translateDocumentModel, translateDocumentProgressInternalModel]
      rw [if_neg hno, if_pos heq]
      rfl

/-- C7 witness: instantiations with an empty `documentId` and with equal
locales. -/
theorem C7_precondition_validation_fails_fast_witness :
    (translateDocumentProgressModel {} emptyStore
        { uid := "api::page.page", documentId := "", sourceLocale := "en",
          targetLocale := "zh" } =
      (.error "缺少参数：uid / documentId / sourceLocale / targetLocale",
        emptyStore, []) ∧
     translateDocumentModel {} emptyStore
        { uid := "api::page.page", documentId := "", sourceLocale := "en",
          targetLocale := "zh" } =
      (.error "缺少参数：uid / documentId / sourceLocale / targetLocale",
        emptyStore, [])) ∧
    (translateDocumentProgressModel {} emptyStore
        { uid := "api::page.page", documentId := "d1", sourceLocale := "en",
          targetLocale := "en" } =
      (.error "sourceLocale 与 targetLocale 不能相同", emptyStore, []) ∧
     translateDocumentModel {} emptyStore
        { uid := "api::page.page", documentId := "d1", sourceLocale := "en",
          targetLocale := "en" } =
      (.error "sourceLocale 与 targetLocale 不能相同", emptyStore, [])) :=
  ⟨(C7_precondition_validation_fails_fast {} emptyStore _).1 (by simp),
   (C7_precondition_validation_fails_fast {} emptyStore _).2
     (by simp) (by simp) (by simp) (by simp) rfl⟩

/-- number of backend calls recorded in a trace. -/
def countBackendCalls (trace : List Effect) : Nat :=
  trace.countP (fun e =>
    match e with
    | .backendCall _ => true
    | _ => false)

theorem countBackendCalls_append (a b : List Effect) :
    countBackendCalls (a ++ b) = countBackendCalls a + countBackendCalls b := by
  simp [countBackendCalls, List.countP_append]

theorem countBackendCalls_runTranslateChunks (env : Env) (tgt : String)
    (cp : Option String) (hashById : List (String × String))
    (chunks : List (List Segment)) (st : ChunkLoopState) :
    countBackendCalls (runTranslateChunks env tgt cp hashById chunks st).trace =
      countBackendCalls st.trace + chunks.length := by
  induction chunks generalizing st with
  | nil => simp [runTranslateChunks]
  | cons chunk rest ih =>
    simp only [runTranslateChunks]
    rw [ih, countBackendCalls_append]
    simp only [countBackendCalls, List.countP_cons, List.countP_nil]
    norm_num
    omega

theorem countBackendCalls_internal_le (env : Env) (store : Store)
    (input : TranslateDocumentInput) (budget : Nat) :
    countBackendCalls
        (translateDocumentProgressInternalModel env store input budget).2.2 ≤
      budget := by
  simp only [translateDocumentProgressInternalModel]
  split
  · simp [countBackendCalls]
  · split
    · simp [countBackendCalls]
    · split
      · simp [countBackendCalls, List.countP_cons, List.countP_nil]
      · split
        · simp [countBackendCalls, List.countP_cons, List.countP_nil]
        · split
          · split
            · simp [countBackendCalls, List.countP_cons, List.countP_nil]
            · split
              · simp [countBackendCalls, List.countP_cons, List.countP_nil]
              · simp only
                rw [countBackendCalls_runTranslateChunks]
                simp only [countBackendCalls_append, countBackendCalls,
                  List.countP_append, List.countP_cons, List.countP_nil,
                  List.length_take]
                norm_num
          · simp [countBackendCalls, List.countP_cons, List.countP_nil]

/-- C10: the resumable entry point's chunk budget is `normalizeMaxChunks` of
the caller's `maxChunks` with fallback 1, which is always clamped into
`1..10` (non-numbers, NaN, infinities and non-positive floors fall back to 1;
anything above 10 is capped at 10), so one progress call issues at most 10
backend calls; only `translateDocument` is unbounded, using
`Number.MAX_SAFE_INTEGER` as its budget. -/
theorem C10_progress_chunk_budget_clamped :
    (∀ v : Option JSNumber,
      1 ≤ normalizeMaxChunks v 1 ∧ normalizeMaxChunks v 1 ≤ 10) ∧
    (normalizeMaxChunks none 1 = 1 ∧
      normalizeMaxChunks (some .nan) 1 = 1 ∧
      normalizeMaxChunks (some .posInf) 1 = 1 ∧
      normalizeMaxChunks (some .negInf) 1 = 1) ∧
    (∀ x : ℚ, ⌊x⌋ ≤ 0 → normalizeMaxChunks (some (.finite x)) 1 = 1) ∧
    (∀ x : ℚ, 10 < ⌊x⌋ → normalizeMaxChunks (some (.finite x)) 1 = 10) ∧
    (∀ (env : Env) (store : Store) (input : TranslateDocumentInput),
      countBackendCalls (translateDocumentProgressModel env store input).2.2 ≤ 10) ∧
    (∀ (env : Env) (store : Store) (input : TranslateDocumentInput),
      translateDocumentModel env store input =
        (match translateDocumentProgressInternalModel env store input maxSafeInteger with
         | (res, st, tr) => (res.map (fun r => r.data), st, tr))) := by
  have hbounds : ∀ v : Option JSNumber,
      1 ≤ normalizeMaxChunks v 1 ∧ normalizeMaxChunks v 1 ≤ 10 := by
    intro v
    match v with
    | none => exact ⟨le_refl 1, by norm_num [normalizeMaxChunks]⟩
    | some .nan => exact ⟨le_refl 1, by norm_num [normalizeMaxChunks]⟩
    | some .posInf => exact ⟨le_refl 1, by norm_num [normalizeMaxChunks]⟩
    | some .negInf => exact ⟨le_refl 1, by norm_num [normalizeMaxChunks]⟩
    | some (.finite x) =>
      simp only [normalizeMaxChunks]
      by_cases h : ⌊x⌋ ≤ 0
      · rw [if_pos h]; omega
      · rw [if_neg h]
        have h1 : 1 ≤ ⌊x⌋ := by omega
        have h2 : 1 ≤ (⌊x⌋).toNat := by omega
        omega
  refine ⟨hbounds, ⟨rfl, rfl, rfl, rfl⟩, ?_, ?_, ?_, ?_⟩
  · intro x h
    simp [normalizeMaxChunks, h]
  · intro x h
    have h0 : ¬ (⌊x⌋ ≤ 0) := by omega
    have h11 : 11 ≤ (⌊x⌋).toNat := by omega
    simp only [normalizeMaxChunks, h0, if_false]
    omega
  · intro env store input
    have hb := (hbounds input.maxChunks).2
    have := countBackendCalls_internal_le env store input
      (normalizeMaxChunks input.maxChunks 1)
    simp only [translateDocumentProgressModel]
    omega
  · intro env store input
    rfl

/-- C10 witness: the capping case at the concrete value `12`. -/
theorem C10_progress_chunk_budget_clamped_witness :
    (10 : ℤ) < ⌊(12 : ℚ)⌋ ∧ normalizeMaxChunks (some (.finite 12)) 1 = 10 := by
  have h : (10 : ℤ) < ⌊(12 : ℚ)⌋ := by norm_num
  exact ⟨h, C10_progress_chunk_budget_clamped.2.2.2.1 12 h⟩

/-! ## Cache roundtrip (C4) -/

/-- keys of an association list. -/
def keysOf {α : Type} (l : List (String × α)) : List String := l.map Prod.fst

theorem mem_keysOf_recSet {α : Type} {l : List (String × α)} {k a : String}
    {v : α} (h : a ∈ keysOf (recSet l k v)) : a ∈ keysOf l ∨ a = k := by
  induction l with
  | nil =>
    right
    simpa [recSet, keysOf] using h
  | cons p rest ih =>
    by_cases hp : p.1 = k
    · simp only [recSet, if_pos hp, keysOf, List.map_cons, List.mem_cons] at h
      rcases h with h | h
      · right; exact h
      · left; simp only [keysOf, List.map_cons, List.mem_cons]
        right; exact h
    · simp only [recSet, if_neg hp, keysOf, List.map_cons, List.mem_cons] at h
      rcases h with h | h
      · left; simp [keysOf, h]
      · rcases ih h with h2 | h2
        · left; simp only [keysOf, List.map_cons, List.mem_cons]; right; exact h2
        · right; exact h2

theorem nodup_keysOf_recSet {α : Type} {l : List (String × α)} {k : String}
    {v : α} (h : (keysOf l).Nodup) : (keysOf (recSet l k v)).Nodup := by
  induction l with
  | nil => simp [recSet, keysOf]
  | cons p rest ih =>
    simp only [keysOf, List.map_cons, List.nodup_cons] at h
    by_cases hp : p.1 = k
    · simp only [recSet, if_pos hp, keysOf, List.map_cons, List.nodup_cons]
      refine ⟨?_, h.2⟩
      rw [← hp]
      exact h.1
    · simp only [recSet, if_neg hp, keysOf, List.map_cons, List.nodup_cons]
      refine ⟨?_, ih h.2⟩
      intro hc
      rcases mem_keysOf_recSet hc with h2 | h2
      · exact h.1 h2
      · exact hp (h2 ▸ rfl)

theorem recGet_eq_none_of_not_mem {α : Type} {l : List (String × α)} {k : String}
    (h : k ∉ keysOf l) : recGet l k = none := by
  induction l with
  | nil => rfl
  | cons p rest ih =>
    simp only [keysOf, List.map_cons, List.mem_cons, not_or] at h
    have hp : ¬ (p.1 = k) := fun hc => h.1 hc.symm
    simp only [recGet, if_neg hp]
    exact ih h.2

/-- the per-entry step of `normalizeCacheBucketValue` applied to already
string-valued entries. -/
def normStep (acc : List (String × String)) (p : String × String) :
    List (String × String) :=
  if p.2.length > 0 then recSet acc p.1 p.2 else acc

theorem normalizeCacheBucketValue_encode (m : List (String × String)) :
    normalizeCacheBucketValue (some (encodeBucket m)) = m.foldl normStep [] := by
  simp only [normalizeCacheBucketValue, encodeBucket, List.foldl_map]
  rfl

theorem nodup_keysOf_foldl_normStep (m : List (String × String))
    (acc : List (String × String)) (hacc : (keysOf acc).Nodup) :
    (keysOf (m.foldl normStep acc)).Nodup := by
  induction m generalizing acc with
  | nil => exact hacc
  | cons p rest ih =>
    simp only [List.foldl_cons]
    refine ih _ ?_
    by_cases hl : p.2.length > 0
    · simp only [normStep, if_pos hl]
      exact nodup_keysOf_recSet hacc
    · simpa only [normStep, if_neg hl] using hacc

theorem nodup_keysOf_normalize (raw : Option JValue) :
    (keysOf (normalizeCacheBucketValue raw)).Nodup := by
  match raw with
  | none => simp [normalizeCacheBucketValue, keysOf]
  | some (.str _) | some (.num _) | some (.bool _) | some .null | some (.arr _) =>
    simp [normalizeCacheBucketValue, keysOf]
  | some (.obj fields) =>
    simp only [normalizeCacheBucketValue]
    -- the source folds over JSON values; relate it to `normStep` over kept pairs
    suffices hgen : ∀ acc : List (String × String), (keysOf acc).Nodup →
        (keysOf (fields.foldl
          (fun acc p =>
            match p.2 with
            | .str s => if s.length > 0 then recSet acc p.1 s else acc
            | _ => acc) acc)).Nodup by
      exact hgen [] (by simp [keysOf])
    induction fields with
    | nil => intro acc hacc; exact hacc
    | cons p rest ih =>
      intro acc hacc
      simp only [List.foldl_cons]
      refine ih _ ?_
      match hp : p.2 with
      | .str s =>
        by_cases hl : s.length > 0
        · simpa only [if_pos hl] using nodup_keysOf_recSet hacc
        · simpa only [if_neg hl] using hacc
      | .num _ | .bool _ | .null | .arr _ | .obj _ => exact hacc

theorem foldl_normStep_not_mem {rest : List (String × String)}
    {h : String} (hnot : h ∉ keysOf rest) (acc : List (String × String)) :
    recGet (rest.foldl normStep acc) h = recGet acc h := by
  induction rest generalizing acc with
  | nil => rfl
  | cons p tail ih =>
    simp only [keysOf, List.map_cons, List.mem_cons, not_or] at hnot
    simp only [List.foldl_cons]
    rw [ih hnot.2]
    by_cases hl : p.2.length > 0
    · simp only [normStep, if_pos hl]
      exact recGet_recSet_other _ _ _ _ hnot.1
    · simp only [normStep, if_neg hl]

theorem recGet_foldl_normStep {m : List (String × String)} {h t : String}
    (hnd : (keysOf m).Nodup) (hget : recGet m h = some t) (hne : t ≠ "") :
    ∀ acc, recGet (m.foldl normStep acc) h = some t := by
  induction m with
  | nil => simp [recGet] at hget
  | cons p rest ih =>
    intro acc
    simp only [keysOf, List.map_cons, List.nodup_cons] at hnd
    by_cases hp : p.1 = h
    · simp only [recGet, if_pos hp] at hget
      injection hget with hget
      subst hget
      have hne' : h ∉ keysOf rest := by rw [← hp]; exact hnd.1
      simp only [List.foldl_cons]
      rw [foldl_normStep_not_mem hne']
      have hl : p.2.length > 0 := by
        rcases Nat.eq_zero_or_pos p.2.length with hp2 | hp2
        · exact absurd (String.ext (by
            have : p.2.data.length = 0 := hp2
            simpa using List.length_eq_zero.mp this)) hne
        · exact hp2
      simp only [normStep, if_pos hl]
      rw [hp] at *
      exact recGet_recSet_self _ _ _
    · simp only [recGet, if_neg hp] at hget
      simp only [List.foldl_cons]
      exact ih hnd.2 hget _

theorem storeSet_self (st : Store) (k : String) (v : JValue) :
    storeSet st k v k = some v := by
  simp [storeSet]

/-- a hash whose bucket holds no entry for it is absent from the result of
`getCachedTranslations` (the unset-hash behaviour). -/
theorem getCachedTranslations_absent (store : Store) (h : String)
    (hnone : recGet (normalizeCacheBucketValue
      (store (cacheStoreKey cacheVersion (getCacheBucketKey h)))) h = none) :
    recGet (getCachedTranslations store [h]) h = none := by
  by_cases hlen : h.length ≥ 2
  · have hfil2 : ([h].filter (fun s => s.length ≥ 2)) = [h] := by simp [hlen]
    simp only [getCachedTranslations, dedupFirst, List.foldl_cons, List.foldl_nil,
      List.contains_nil, List.nil_append, hfil2, List.isEmpty_cons,
      Bool.false_eq_true, if_false, groupPush]
    rw [hnone]
    rfl
  · have hfil2 : ([h].filter (fun s => s.length ≥ 2)) = [] := by
      simp [hlen]
    simp [getCachedTranslations, dedupFirst, hfil2, recGet]

/-- C4 counterexample: writing the empty translation for the well-formed hash
`"ab"` and reading it back yields an empty result — the read normalization
drops empty string values, so the set-then-get roundtrip does not return the
stored translation, contradicting the claim for `t = ""`. -/
theorem C4_counterexample_empty_translation_not_returned :
    getCachedTranslations (setCachedTranslations emptyStore [("ab", "")]) ["ab"] =
      [] ∧
    recGet (getCachedTranslations
      (setCachedTranslations emptyStore [("ab", "")]) ["ab"]) "ab" = none := by
  constructor <;> rfl

/-- C4 (amended): for a hash of length at least 2 and a non-empty translation,
`setCachedTranslations` followed by `getCachedTranslations` on the same hash
(with no intervening writes) yields the stored translation; and any hash whose
bucket holds no entry for it is simply omitted from the result of
`getCachedTranslations` (no error). -/
theorem C4_cache_set_then_get_roundtrip :
    (∀ (store : Store) (h t : String), 2 ≤ h.length → t ≠ "" →
      recGet (getCachedTranslations (setCachedTranslations store [(h, t)]) [h]) h =
        some t) ∧
    (∀ (store : Store) (h : String),
      recGet (normalizeCacheBucketValue
        (store (cacheStoreKey cacheVersion (getCacheBucketKey h)))) h = none →
      recGet (getCachedTranslations store [h]) h = none) := by
  constructor
  · intro store h t hlen hne
    have hfil : ([((h : String), (t : String))].filter (fun e => e.1.length ≥ 2)) =
        [(h, t)] := by simp [hlen]
    have hfil2 : ([h].filter (fun s => s.length ≥ 2)) = [h] := by simp [hlen]
    simp only [setCachedTranslations, hfil, List.isEmpty_cons, Bool.false_eq_true,
      if_false, List.foldl_cons, List.foldl_nil, groupPush, getCachedTranslations,
      dedupFirst, List.contains_nil, List.nil_append, hfil2]
    rw [storeSet_self, normalizeCacheBucketValue_encode]
    have hnd : (keysOf (recSet
        (normalizeCacheBucketValue
          (store (cacheStoreKey cacheVersion (getCacheBucketKey h)))) h t)).Nodup :=
      nodup_keysOf_recSet (nodup_keysOf_normalize _)
    have hget : recGet (recSet
        (normalizeCacheBucketValue
          (store (cacheStoreKey cacheVersion (getCacheBucketKey h)))) h t) h =
        some t := recGet_recSet_self _ _ _
    rw [recGet_foldl_normStep hnd hget hne []]
    exact recGet_recSet_self _ _ _
  · exact fun store h hnone => getCachedTranslations_absent store h hnone

/-- C4 witness: the roundtrip at hash `"abcd"` and translation `"hello"`, and
the miss at the never-set hash `"ffff"`, both on the empty store. -/
theorem C4_cache_set_then_get_roundtrip_witness :
    recGet (getCachedTranslations
      (setCachedTranslations emptyStore [("abcd", "hello")]) ["abcd"]) "abcd" =
      some "hello" ∧
    recGet (getCachedTranslations emptyStore ["ffff"]) "ffff" = none :=
  ⟨C4_cache_set_then_get_roundtrip.1 emptyStore "abcd" "hello" (by decide)
      (by decide),
   C4_cache_set_then_get_roundtrip.2 emptyStore "ffff" rfl⟩

/-! ## Cache clearing (C8) -/

theorem cacheStoreKey_inj_bucket {v : Nat} {b1 b2 : String}
    (h : cacheStoreKey v b1 = cacheStoreKey v b2) : b1 = b2 := by
  unfold cacheStoreKey at h
  have hd := congrArg String.data h
  simp only [String.data_append] at hd
  have := List.append_cancel_left hd
  exact String.ext this

theorem cacheStoreKey_v1_ne_v2 (b1 b2 : String) :
    cacheStoreKey 1 b1 ≠ cacheStoreKey 2 b2 := by
  intro h
  have h' : "translation-cache:v1:" ++ b1 = "translation-cache:v2:" ++ b2 := h
  have hd := congrArg String.data h'
  simp only [String.data_append] at hd
  have hlen : ("translation-cache:v1:" : String).data.length =
      ("translation-cache:v2:" : String).data.length := by decide
  have := (List.append_inj hd hlen).1
  exact absurd this (by decide)

theorem clearStep_preserves_none {version : Nat} {k : String}
    {acc : Store × Nat} (h : acc.1 k = none) (b : String) :
    ((clearStep version acc b).1) k = none := by
  unfold clearStep
  by_cases hk : cacheStoreKey version b = k
  · subst hk
    rw [h]
    simpa [normalizeCacheBucketValue] using h
  · split
    · simp only [storeSet]
      rw [if_neg (fun hc : k = cacheStoreKey version b => hk hc.symm)]
      exact h
    · exact h

theorem clearFold_preserves_none {version : Nat} {k : String} :
    ∀ (l : List String) (acc : Store × Nat), acc.1 k = none →
      ((l.foldl (clearStep version) acc).1) k = none := by
  intro l
  induction l with
  | nil => intro acc h; exact h
  | cons b rest ih =>
    intro acc h
    simp only [List.foldl_cons]
    exact ih _ (clearStep_preserves_none h b)

/-- the step at bucket `b` leaves that bucket holding no data (it is reset if
it held data, and was already empty otherwise). -/
theorem clearStep_establishes {version : Nat} {b' : String} (acc : Store × Nat) :
    normalizeCacheBucketValue
      ((clearStep version acc b').1 (cacheStoreKey version b')) = [] := by
  unfold clearStep
  split
  · simp [storeSet, normalizeCacheBucketValue]
  · rename_i hguard
    exact List.length_eq_zero.mp (by omega)

theorem clearStep_preserves_empty {version : Nat} {b : String}
    {acc : Store × Nat}
    (h : normalizeCacheBucketValue (acc.1 (cacheStoreKey version b)) = [])
    (b' : String) :
    normalizeCacheBucketValue
      ((clearStep version acc b').1 (cacheStoreKey version b)) = [] := by
  by_cases hk : cacheStoreKey version b' = cacheStoreKey version b
  · exact hk ▸ clearStep_establishes acc
  · unfold clearStep
    split
    · simp only [storeSet]
      rw [if_neg (fun hc : cacheStoreKey version b = cacheStoreKey version b' =>
        hk hc.symm)]
      exact h
    · exact h

/-- after a version pass over a bucket list containing `b`, the bucket `b`
holds no data. -/
theorem clearFold_bucket_emptied {version : Nat} {b : String} :
    ∀ (l : List String) (acc : Store × Nat),
      (b ∈ l ∨
        normalizeCacheBucketValue (acc.1 (cacheStoreKey version b)) = []) →
      normalizeCacheBucketValue
        (((l.foldl (clearStep version) acc).1) (cacheStoreKey version b)) = [] := by
  intro l
  induction l with
  | nil =>
    intro acc h
    rcases h with h | h
    · simp at h
    · exact h
  | cons b' rest ih =>
    intro acc h
    simp only [List.foldl_cons]
    rcases h with h | h
    · rcases List.mem_cons.mp h with h1 | h1
      · subst h1
        exact ih _ (Or.inr (clearStep_establishes acc))
      · exact ih _ (Or.inl h1)
    · exact ih _ (Or.inr (clearStep_preserves_empty h b'))

theorem clearFold_untouched {version : Nat} {k : String} :
    ∀ (l : List String) (acc : Store × Nat),
      (∀ b ∈ l, k ≠ cacheStoreKey version b) →
      ((l.foldl (clearStep version) acc).1) k = acc.1 k := by
  intro l
  induction l with
  | nil => intro acc _; rfl
  | cons b' rest ih =>
    intro acc hk
    simp only [List.foldl_cons]
    rw [ih _ (fun b hb => hk b (List.mem_cons_of_mem _ hb))]
    unfold clearStep
    split
    · simp only [storeSet]
      rw [if_neg (hk b' (List.mem_cons_self _ _))]
    · rfl

theorem clearStep_change_inv {version : Nat} {k : String} (store : Store)
    {acc : Store × Nat}
    (h : acc.1 k = store k ∨
      ((normalizeCacheBucketValue (store k)).length > 0 ∧
        acc.1 k = some (.obj []))) (b : String) :
    ((clearStep version acc b).1) k = store k ∨
      ((normalizeCacheBucketValue (store k)).length > 0 ∧
        ((clearStep version acc b).1) k = some (.obj [])) := by
  unfold clearStep
  by_cases hk : cacheStoreKey version b = k
  · subst hk
    split
    · rename_i hguard
      right
      refine ⟨?_, by simp [storeSet]⟩
      rcases h with h | h
      · rw [← h]; exact hguard
      · exact h.1
    · exact h
  · split
    · simp only [storeSet]
      rw [if_neg (fun hc : k = cacheStoreKey version b => hk hc.symm)]
      exact h
    · exact h

theorem clearFold_change_inv {version : Nat} {k : String} (store : Store) :
    ∀ (l : List String) (acc : Store × Nat),
      (acc.1 k = store k ∨
        ((normalizeCacheBucketValue (store k)).length > 0 ∧
          acc.1 k = some (.obj []))) →
      ((l.foldl (clearStep version) acc).1) k = store k ∨
        ((normalizeCacheBucketValue (store k)).length > 0 ∧
          ((l.foldl (clearStep version) acc).1) k = some (.obj [])) := by
  intro l
  induction l with
  | nil => intro acc h; exact h
  | cons b rest ih =>
    intro acc h
    simp only [List.foldl_cons]
    exact ih _ (clearStep_change_inv store h b)

set_option maxRecDepth 4096 in
theorem bucketKeys_codes_nodup :
    (getAllBucketKeys.map
      (fun s => s.data.foldl (fun a c => a * 65536 + c.toNat) 0)).Nodup := by
  decide

theorem bucketKeys_nodup : getAllBucketKeys.Nodup :=
  bucketKeys_codes_nodup.of_map

theorem clearFold_count {version : Nat} (store : Store) :
    ∀ (l : List String), l.Nodup → ∀ (acc : Store × Nat),
      (∀ b ∈ l, acc.1 (cacheStoreKey version b) = store (cacheStoreKey version b)) →
      (l.foldl (clearStep version) acc).2 =
        acc.2 + l.countP
          (fun b =>
            (normalizeCacheBucketValue (store (cacheStoreKey version b))).length > 0) := by
  intro l
  induction l with
  | nil => intro _ acc _; simp
  | cons b' rest ih =>
    intro hnd acc hsame
    have hnd' := List.nodup_cons.mp hnd
    have hb' := hsame b' (List.mem_cons_self _ _)
    simp only [List.foldl_cons]
    by_cases hguard :
        (normalizeCacheBucketValue (acc.1 (cacheStoreKey version b'))).length > 0
    · have hstep : clearStep version acc b' =
          (storeSet acc.1 (cacheStoreKey version b') (.obj []), acc.2 + 1) := by
        unfold clearStep
        rw [if_pos hguard]
      rw [hstep]
      rw [ih hnd'.2 _ ?hsame]
      case hsame =>
        intro b hb
        simp only [storeSet]
        rw [if_neg ?_]
        · exact hsame b (List.mem_cons_of_mem _ hb)
        · intro hc
          exact hnd'.1 ((cacheStoreKey_inj_bucket hc) ▸ hb)
      have hp : (normalizeCacheBucketValue
          (store (cacheStoreKey version b'))).length > 0 := hb' ▸ hguard
      simp only [List.countP_cons, hp]
      simp
      omega
    · have hstep : clearStep version acc b' = acc := by
        unfold clearStep
        rw [if_neg hguard]
      rw [hstep]
      rw [ih hnd'.2 _ (fun b hb => hsame b (List.mem_cons_of_mem _ hb))]
      have hp : ¬ (normalizeCacheBucketValue
          (store (cacheStoreKey version b'))).length > 0 := hb' ▸ hguard
      simp only [List.countP_cons]
      simp [hp]

/-! wrappers restating the fold lemmas at the `clearVersionBuckets` level, so
proofs never unfold the 256-bucket fold. -/

theorem clearVersionBuckets_preserves_none {version : Nat} {k : String}
    (store : Store) (hk : store k = none) :
    (clearVersionBuckets store version).1 k = none := by
  unfold clearVersionBuckets
  exact clearFold_preserves_none _ _ hk

theorem clearVersionBuckets_change_inv {version : Nat} {k : String}
    (store base : Store)
    (h : store k = base k ∨
      ((normalizeCacheBucketValue (base k)).length > 0 ∧
        store k = some (.obj []))) :
    (clearVersionBuckets store version).1 k = base k ∨
      ((normalizeCacheBucketValue (base k)).length > 0 ∧
        (clearVersionBuckets store version).1 k = some (.obj [])) := by
  unfold clearVersionBuckets
  exact clearFold_change_inv base _ _ h

theorem clearVersionBuckets_bucket_emptied {version : Nat} (store : Store)
    {b : String} (hb : b ∈ getAllBucketKeys) :
    normalizeCacheBucketValue
      ((clearVersionBuckets store version).1 (cacheStoreKey version b)) = [] := by
  unfold clearVersionBuckets
  exact clearFold_bucket_emptied _ _ (Or.inl hb)

theorem clearVersionBuckets_untouched {version : Nat} {k : String}
    (store : Store) (hk : ∀ b ∈ getAllBucketKeys, k ≠ cacheStoreKey version b) :
    (clearVersionBuckets store version).1 k = store k := by
  unfold clearVersionBuckets
  exact clearFold_untouched _ _ hk

theorem clearVersionBuckets_count {version : Nat} (store : Store) :
    (clearVersionBuckets store version).2 =
      getAllBucketKeys.countP (fun b =>
        (normalizeCacheBucketValue (store (cacheStoreKey version b))).length > 0) := by
  unfold clearVersionBuckets
  simpa using clearFold_count store getAllBucketKeys bucketKeys_nodup (store, 0)
    (fun _ _ => rfl)

attribute [irreducible] clearVersionBuckets

/-- a hash found in its bucket with a value is returned by
`getCachedTranslations`. -/
theorem getCachedTranslations_hit (store : Store) (h t : String)
    (hlen : h.length ≥ 2)
    (hbucket : recGet (normalizeCacheBucketValue
      (store (cacheStoreKey cacheVersion (getCacheBucketKey h)))) h = some t) :
    recGet (getCachedTranslations store [h]) h = some t := by
  have hfil2 : ([h].filter (fun s => s.length ≥ 2)) = [h] := by simp [hlen]
  simp only [getCachedTranslations, dedupFirst, List.foldl_cons, List.foldl_nil,
    List.contains_nil, List.nil_append, hfil2, List.isEmpty_cons, Bool.false_eq_true,
    if_false, groupPush]
  rw [hbucket]
  exact recGet_recSet_self _ _ _

theorem clearTranslationCache_eval (store : Store) (ip : Option Bool) :
    clearTranslationCache store ip =
      if ip = some false then
        ((clearVersionBuckets store 2).1, (clearVersionBuckets store 2).2, 1)
      else
        ((clearVersionBuckets (clearVersionBuckets store 1).1 2).1,
          (clearVersionBuckets store 1).2 +
            (clearVersionBuckets (clearVersionBuckets store 1).1 2).2, 2) := by
  have hv : (List.range cacheVersion).map (· + 1) = [1, 2] := rfl
  match ip with
  | none =>
    simp only [clearTranslationCache, hv]
    simp [List.foldl_cons, List.foldl_nil]
  | some true =>
    simp only [clearTranslationCache, hv]
    simp [List.foldl_cons, List.foldl_nil]
  | some false =>
    simp only [clearTranslationCache]
    simp [cacheVersion, List.foldl_cons, List.foldl_nil]

/-- C8 counterexample: `setCachedTranslations` accepts the hash `"zz"`, whose
bucket prefix is not one of the 256 hex bucket names, so
`clearTranslationCache` (visiting only the hex buckets) leaves it behind and a
subsequent get still returns it — contradicting the claim that every
previously set hash is absent after a clear. -/
theorem C8_counterexample_non_hex_hash_survives_clear :
    recGet (getCachedTranslations
      (clearTranslationCache (setCachedTranslations emptyStore [("zz", "x")]) none).1
      ["zz"]) "zz" = some "x" := by
  have hnotmem : getCacheBucketKey "zz" ∉ getAllBucketKeys := by decide
  have huntouched :
      (clearTranslationCache (setCachedTranslations emptyStore [("zz", "x")]) none).1
        (cacheStoreKey cacheVersion (getCacheBucketKey "zz")) =
      (setCachedTranslations emptyStore [("zz", "x")])
        (cacheStoreKey cacheVersion (getCacheBucketKey "zz")) := by
    rw [clearTranslationCache_eval]
    simp only [reduceCtorEq, if_false]
    rw [clearVersionBuckets_untouched _ ?h2, clearVersionBuckets_untouched _ ?h1]
    case h1 =>
      intro b _
      exact fun hc => cacheStoreKey_v1_ne_v2 b "zz" hc.symm
    case h2 =>
      intro b hb
      intro hc
      exact hnotmem ((cacheStoreKey_inj_bucket hc) ▸ hb)
  refine getCachedTranslations_hit _ _ _ (by decide) ?_
  rw [huntouched]
  rfl

/-- C8 (amended): `clearTranslationCache` never creates a store key that was
unset; every key it changes previously held bucket data and is reset to the
empty bucket; afterwards every hash whose two-character bucket prefix is one
of the 256 hex bucket names is absent from a subsequent get; it visits the
current version and, unless `includePreviousVersions` is `false`, version 1 as
well, reporting `clearedVersions` as the number of versions visited and
`clearedBuckets` as the number of buckets that actually held data (counted
against the store each pass read). -/
theorem C8_clear_cache_resets_only_nonempty_buckets :
    (∀ (store : Store) (ip : Option Bool) (k : String), store k = none →
      (clearTranslationCache store ip).1 k = none) ∧
    (∀ (store : Store) (ip : Option Bool) (k : String),
      (clearTranslationCache store ip).1 k ≠ store k →
      (normalizeCacheBucketValue (store k)).length > 0 ∧
        (clearTranslationCache store ip).1 k = some (.obj [])) ∧
    (∀ (store : Store) (ip : Option Bool) (h : String),
      getCacheBucketKey h ∈ getAllBucketKeys →
      recGet (getCachedTranslations (clearTranslationCache store ip).1 [h]) h =
        none) ∧
    (∀ (store : Store) (ip : Option Bool),
      (clearTranslationCache store ip).2.2 = if ip = some false then 1 else 2) ∧
    (∀ store : Store,
      (clearTranslationCache store (some false)).2.1 =
        getAllBucketKeys.countP (fun b =>
          (normalizeCacheBucketValue (store (cacheStoreKey 2 b))).length > 0)) ∧
    (∀ (store : Store) (ip : Option Bool), ip ≠ some false →
      (clearTranslationCache store ip).2.1 =
        getAllBucketKeys.countP (fun b =>
          (normalizeCacheBucketValue (store (cacheStoreKey 1 b))).length > 0) +
        getAllBucketKeys.countP (fun b =>
          (normalizeCacheBucketValue (store (cacheStoreKey 2 b))).length > 0)) := by
  have huntouch12 : ∀ (store : Store) (b : String),
      (clearVersionBuckets store 1).1 (cacheStoreKey 2 b) =
        store (cacheStoreKey 2 b) := by
    intro store b
    exact clearVersionBuckets_untouched _
      (fun b' _ hc => cacheStoreKey_v1_ne_v2 b' b hc.symm)
  refine ⟨?never, ?changed, ?absent, ?versions, ?cnt1, ?cnt2⟩
  case never =>
    intro store ip k hk
    rw [clearTranslationCache_eval]
    by_cases hip : ip = some false
    · rw [if_pos hip]
      exact clearVersionBuckets_preserves_none store hk
    · rw [if_neg hip]
      exact clearVersionBuckets_preserves_none _
        (clearVersionBuckets_preserves_none store hk)
  case changed =>
    intro store ip k hne
    rw [clearTranslationCache_eval] at hne ⊢
    by_cases hip : ip = some false
    · rw [if_pos hip] at hne ⊢
      rcases clearVersionBuckets_change_inv store store (Or.inl rfl)
        with h | h
      · exact absurd h hne
      · exact h
    · rw [if_neg hip] at hne ⊢
      rcases clearVersionBuckets_change_inv _ store
          (clearVersionBuckets_change_inv store store (Or.inl rfl))
        with h | h
      · exact absurd h hne
      · exact h
  case absent =>
    intro store ip h hmem
    refine getCachedTranslations_absent _ _ ?_
    have hempty : normalizeCacheBucketValue
        ((clearTranslationCache store ip).1
          (cacheStoreKey cacheVersion (getCacheBucketKey h))) = [] := by
      rw [clearTranslationCache_eval]
      by_cases hip : ip = some false
      · rw [if_pos hip]
        exact clearVersionBuckets_bucket_emptied _ hmem
      · rw [if_neg hip]
        exact clearVersionBuckets_bucket_emptied _ hmem
    rw [hempty]
    rfl
  case versions =>
    intro store ip
    rw [clearTranslationCache_eval]
    by_cases hip : ip = some false
    · rw [if_pos hip, if_pos hip]
    · rw [if_neg hip, if_neg hip]
  case cnt1 =>
    intro store
    rw [clearTranslationCache_eval]
    simp only [if_pos rfl]
    exact clearVersionBuckets_count store
  case cnt2 =>
    intro store ip hip
    rw [clearTranslationCache_eval, if_neg hip]
    have hcong : getAllBucketKeys.countP (fun b =>
        (normalizeCacheBucketValue
          ((clearVersionBuckets store 1).1 (cacheStoreKey 2 b))).length > 0) =
      getAllBucketKeys.countP (fun b =>
        (normalizeCacheBucketValue (store (cacheStoreKey 2 b))).length > 0) := by
      refine List.countP_congr ?_
      intro b _
      rw [huntouch12 store b]
    simp only
    rw [clearVersionBuckets_count store,
      clearVersionBuckets_count ((clearVersionBuckets store 1).1), hcong]

/-- C8 witness: concrete instances — clearing the empty store creates no key;
the populated bucket `ab` is reset to the empty bucket; a hex-prefixed hash is
absent after clearing; both versions are visited and counted by default. -/
theorem C8_clear_cache_resets_only_nonempty_buckets_witness :
    (clearTranslationCache emptyStore none).1 "k0" = none ∧
    ((normalizeCacheBucketValue
        ((setCachedTranslations emptyStore [("ab", "x")])
          (cacheStoreKey 2 "ab"))).length > 0 ∧
      (clearTranslationCache (setCachedTranslations emptyStore [("ab", "x")])
          none).1 (cacheStoreKey 2 "ab") = some (.obj [])) ∧
    recGet (getCachedTranslations
      (clearTranslationCache emptyStore (some true)).1 ["abcd"]) "abcd" = none ∧
    (clearTranslationCache emptyStore none).2.2 = 2 ∧
    (clearTranslationCache emptyStore none).2.1 =
      getAllBucketKeys.countP (fun b =>
        (normalizeCacheBucketValue (emptyStore (cacheStoreKey 1 b))).length > 0) +
      getAllBucketKeys.countP (fun b =>
        (normalizeCacheBucketValue (emptyStore (cacheStoreKey 2 b))).length > 0) := by
  refine ⟨?_, ?_, ?_, ?_, ?_⟩
  · exact C8_clear_cache_resets_only_nonempty_buckets.1 emptyStore none "k0" rfl
  · have hne : (clearTranslationCache
        (setCachedTranslations emptyStore [("ab", "x")]) none).1
          (cacheStoreKey 2 "ab") ≠
        (setCachedTranslations emptyStore [("ab", "x")]) (cacheStoreKey 2 "ab") := by
      intro he
      have h1 : normalizeCacheBucketValue
          ((clearTranslationCache
            (setCachedTranslations emptyStore [("ab", "x")]) none).1
              (cacheStoreKey 2 "ab")) = [] := by
        rw [clearTranslationCache_eval]
        simp only [reduceCtorEq, if_false]
        exact clearVersionBuckets_bucket_emptied _ (by decide)
      rw [he] at h1
      exact absurd h1 (by decide)
    exact C8_clear_cache_resets_only_nonempty_buckets.2.1
      (setCachedTranslations emptyStore [("ab", "x")]) none
      (cacheStoreKey 2 "ab") hne
  · exact C8_clear_cache_resets_only_nonempty_buckets.2.2.1 emptyStore (some true)
      "abcd" (by decide)
  · have := C8_clear_cache_resets_only_nonempty_buckets.2.2.2.1 emptyStore none
    simpa using this
  · exact C8_clear_cache_resets_only_nonempty_buckets.2.2.2.2.2 emptyStore none
      (by simp)

/-! ## Hash-input serialization (C5)

`jsonEscape` is injective (shown by a decoding left inverse), and the
serialized record separates each field from the others by fixed delimiters, so
two inputs differing in exactly one (normalized) field serialize differently. -/

/-- value of a lowercase hex digit character. -/
def hexCharVal (c : Char) : Nat :=
  if c.toNat < 58 then c.toNat - 48 else c.toNat - 87

/-- inverse of the two-character escapes. -/
def unescapeChar (d : Char) : Char :=
  if d = 'b' then '\x08'
  else if d = 't' then '\x09'
  else if d = 'n' then '\x0a'
  else if d = 'f' then '\x0c'
  else if d = 'r' then '\x0d'
  else d

/-- decoder of the JSON string escaping produced by `jsonEscapeChar`. -/
def decodeEsc : List Char → Option (List Char)
  | [] => some []
  | c :: rest =>
    if c = '\\' then
      match rest with
      | [] => none
      | d :: rest2 =>
        if d = 'u' then
          match rest2 with
          | _ :: _ :: h1 :: h2 :: rest3 =>
            (decodeEsc rest3).map
              (fun r => Char.ofNat (16 * hexCharVal h1 + hexCharVal h2) :: r)
          | _ => none
        else (decodeEsc rest2).map (fun r => unescapeChar d :: r)
    else (decodeEsc rest).map (fun r => c :: r)

theorem hexCharVal_hexDigitChar : ∀ n < 16, hexCharVal (hexDigitChar n) = n := by
  decide

theorem decodeEsc_escapeChar (c : Char) (rest : List Char) :
    decodeEsc (jsonEscapeChar c ++ rest) =
      (decodeEsc rest).map (fun r => c :: r) := by
  by_cases h1 : c = '"'
  · subst h1; simp [jsonEscapeChar]; rw [decodeEsc.eq_def]; simp [unescapeChar]
  by_cases h2 : c = '\\'
  · subst h2; simp [jsonEscapeChar]; rw [decodeEsc.eq_def]; simp [unescapeChar]
  by_cases h3 : c = '\x08'
  · subst h3; simp [jsonEscapeChar]; rw [decodeEsc.eq_def]; simp [unescapeChar]
  by_cases h4 : c = '\x09'
  · subst h4; simp [jsonEscapeChar, h1]; rw [decodeEsc.eq_def]; simp [unescapeChar]
  by_cases h5 : c = '\x0a'
  · subst h5; simp [jsonEscapeChar, h1]; rw [decodeEsc.eq_def]; simp [unescapeChar]
  by_cases h6 : c = '\x0c'
  · subst h6; simp [jsonEscapeChar, h1]; rw [decodeEsc.eq_def]; simp [unescapeChar]
  by_cases h7 : c = '\x0d'
  · subst h7; simp [jsonEscapeChar, h1]; rw [decodeEsc.eq_def]; simp [unescapeChar]
  by_cases h8 : c.toNat < 32
  · simp only [jsonEscapeChar, h1, h2, h3, h4, h5, h6, h7, if_neg, if_false,
      if_pos h8, ite_false, ite_true]
    simp only [List.cons_append, List.nil_append]
    rw [decodeEsc.eq_def]
    simp only [if_pos rfl, if_true]
    have e1 : hexCharVal (hexDigitChar (c.toNat / 16)) = c.toNat / 16 :=
      hexCharVal_hexDigitChar _ (by omega)
    have e2 : hexCharVal (hexDigitChar (c.toNat % 16)) = c.toNat % 16 :=
      hexCharVal_hexDigitChar _ (Nat.mod_lt _ (by norm_num))
    simp only [e1, e2]
    have hv : 16 * (c.toNat / 16) + c.toNat % 16 = c.toNat := by omega
    rw [hv, Char.ofNat_toNat]
  · simp only [jsonEscapeChar, h1, h2, h3, h4, h5, h6, h7, h8, if_neg, if_false,
      ite_false]
    simp only [List.cons_append, List.nil_append]
    rw [decodeEsc.eq_def]
    simp only [if_neg h2]

theorem decodeEsc_flatMap (l : List Char) :
    ∀ rest, decodeEsc (l.flatMap jsonEscapeChar ++ rest) =
      (decodeEsc rest).map (fun r => l ++ r) := by
  induction l with
  | nil =>
    intro rest
    simp only [List.flatMap_nil, List.nil_append]
    cases decodeEsc rest <;> simp
  | cons c l' ih =>
    intro rest
    simp only [List.flatMap_cons, List.append_assoc]
    rw [decodeEsc_escapeChar, ih rest]
    cases decodeEsc rest <;> simp

theorem jsonEscape_injective : Function.Injective jsonEscape := by
  intro a b h
  have hd : a.data.flatMap jsonEscapeChar = b.data.flatMap jsonEscapeChar :=
    congrArg String.data h
  have ha := decodeEsc_flatMap a.data []
  have hb := decodeEsc_flatMap b.data []
  rw [List.append_nil] at ha hb
  rw [hd, hb] at ha
  rw [decodeEsc.eq_def] at ha
  simp only [Option.map_some, List.append_nil] at ha
  have h5 : b.data ++ [] = a.data ++ [] := Option.some.inj ha
  exact String.ext (by simpa using h5.symm)

theorem data_append (a b : String) : (a ++ b).data = a.data ++ b.data := rfl

theorem quoted_cancel {p q x y : String}
    (h : p ++ (jsonQuote x ++ q) = p ++ (jsonQuote y ++ q)) : x = y := by
  have hd := congrArg String.data h
  simp only [data_append] at hd
  have h1 := List.append_cancel_left hd
  have h2 := List.append_cancel_right h1
  simp only [jsonQuote, data_append, List.append_assoc] at h2
  have h3 := List.append_cancel_left h2
  have h4 := List.append_cancel_right h3
  exact jsonEscape_injective (String.ext h4)

theorem string_append_left_cancel {a x y : String} (h : a ++ x = a ++ y) :
    x = y := by
  have hd := congrArg String.data h
  simp only [data_append] at hd
  exact String.ext (List.append_cancel_left hd)

theorem quote_append_cancel {x y S : String}
    (h : jsonQuote x ++ S = jsonQuote y ++ S) : x = y := by
  have hd := congrArg String.data h
  simp only [data_append] at hd
  have h1 := List.append_cancel_right hd
  simp only [jsonQuote, data_append, List.append_assoc] at h1
  have h2 := List.append_cancel_left h1
  have h3 := List.append_cancel_right h2
  exact jsonEscape_injective (String.ext h3)

/-- the seven effective inputs of the hash, after the normalization applied by
`buildTranslationCacheHash` (`?? ''` then `.trim()` on the optional fields). -/
def hashFieldsTuple (p : HashParams) :
    String × String × String × String × String × String × String :=
  (p.provider, (p.model.getD "").trim, (p.endpoint.getD "").trim,
   p.sourceLocale, p.targetLocale, (p.prompt.getD "").trim, p.text)

/-- **C5**: `buildTranslationCacheHash` is a pure function of the seven
normalized inputs: two calls whose inputs agree after normalization (optional
`model` / `endpoint` / `prompt` defaulted to `""` and trimmed) produce the
same hash, and — with the SHA-256 digest abstracted as an injective
function — changing any one of provider, model, endpoint, sourceLocale,
targetLocale, prompt (modulo trimming) or text while keeping the others
fixed produces a different hash (stated contrapositively: equal hashes force
the changed field to agree after normalization). -/
theorem C5_hash_deterministic_and_field_sensitive
    (digest : String → String) (hinj : Function.Injective digest)
    (p : HashParams) (v : String) (ov : Option String) :
    (∀ q, hashFieldsTuple p = hashFieldsTuple q →
      buildTranslationCacheHashWith digest p =
        buildTranslationCacheHashWith digest q) ∧
    (buildTranslationCacheHashWith digest
        ⟨v, p.model, p.endpoint, p.sourceLocale, p.targetLocale, p.prompt,
         p.text⟩ =
        buildTranslationCacheHashWith digest p → v = p.provider) ∧
    (buildTranslationCacheHashWith digest
        ⟨p.provider, ov, p.endpoint, p.sourceLocale, p.targetLocale, p.prompt,
         p.text⟩ =
        buildTranslationCacheHashWith digest p →
      (ov.getD "").trim = (p.model.getD "").trim) ∧
    (buildTranslationCacheHashWith digest
        ⟨p.provider, p.model, ov, p.sourceLocale, p.targetLocale, p.prompt,
         p.text⟩ =
        buildTranslationCacheHashWith digest p →
      (ov.getD "").trim = (p.endpoint.getD "").trim) ∧
    (buildTranslationCacheHashWith digest
        ⟨p.provider, p.model, p.endpoint, v, p.targetLocale, p.prompt,
         p.text⟩ =
        buildTranslationCacheHashWith digest p → v = p.sourceLocale) ∧
    (buildTranslationCacheHashWith digest
        ⟨p.provider, p.model, p.endpoint, p.sourceLocale, v, p.prompt,
         p.text⟩ =
        buildTranslationCacheHashWith digest p → v = p.targetLocale) ∧
    (buildTranslationCacheHashWith digest
        ⟨p.provider, p.model, p.endpoint, p.sourceLocale, p.targetLocale, ov,
         p.text⟩ =
        buildTranslationCacheHashWith digest p →
      (ov.getD "").trim = (p.prompt.getD "").trim) ∧
    (buildTranslationCacheHashWith digest
        ⟨p.provider, p.model, p.endpoint, p.sourceLocale, p.targetLocale,
         p.prompt, v⟩ =
        buildTranslationCacheHashWith digest p → v = p.text) := by
  refine ⟨?_, ?_, ?_, ?_, ?_, ?_, ?_, ?_⟩
  · intro q h
    simp only [hashFieldsTuple, Prod.mk.injEq] at h
    obtain ⟨e1, e2, e3, e4, e5, e6, e7⟩ := h
    simp only [buildTranslationCacheHashWith, cacheHashInput, e1, e2, e3, e4,
      e5, e6, e7]
  · intro h
    have h' := hinj h
    simp only [cacheHashInput, String.append_assoc] at h'
    have h1 := string_append_left_cancel h'
    exact quote_append_cancel h1
  · intro h
    have h' := hinj h
    simp only [cacheHashInput, String.append_assoc] at h'
    have h1 := string_append_left_cancel h'
    have h2 := string_append_left_cancel h1
    have h3 := string_append_left_cancel h2
    exact quote_append_cancel h3
  · intro h
    have h' := hinj h
    simp only [cacheHashInput, String.append_assoc] at h'
    have h1 := string_append_left_cancel h'
    have h2 := string_append_left_cancel h1
    have h3 := string_append_left_cancel h2
    have h4 := string_append_left_cancel h3
    have h5 := string_append_left_cancel h4
    exact quote_append_cancel h5
  · intro h
    have h' := hinj h
    simp only [cacheHashInput, String.append_assoc] at h'
    have h1 := string_append_left_cancel h'
    have h2 := string_append_left_cancel h1
    have h3 := string_append_left_cancel h2
    have h4 := string_append_left_cancel h3
    have h5 := string_append_left_cancel h4
    have h6 := string_append_left_cancel h5
    have h7 := string_append_left_cancel h6
    exact quote_append_cancel h7
  · intro h
    have h' := hinj h
    simp only [cacheHashInput, String.append_assoc] at h'
    have h1 := string_append_left_cancel h'
    have h2 := string_append_left_cancel h1
    have h3 := string_append_left_cancel h2
    have h4 := string_append_left_cancel h3
    have h5 := string_append_left_cancel h4
    have h6 := string_append_left_cancel h5
    have h7 := string_append_left_cancel h6
    have h8 := string_append_left_cancel h7
    have h9 := string_append_left_cancel h8
    exact quote_append_cancel h9
  · intro h
    have h' := hinj h
    simp only [cacheHashInput, String.append_assoc] at h'
    have h1 := string_append_left_cancel h'
    have h2 := string_append_left_cancel h1
    have h3 := string_append_left_cancel h2
    have h4 := string_append_left_cancel h3
    have h5 := string_append_left_cancel h4
    have h6 := string_append_left_cancel h5
    have h7 := string_append_left_cancel h6
    have h8 := string_append_left_cancel h7
    have h9 := string_append_left_cancel h8
    have h10 := string_append_left_cancel h9
    have h11 := string_append_left_cancel h10
    exact quote_append_cancel h11
  · intro h
    have h' := hinj h
    simp only [cacheHashInput, String.append_assoc] at h'
    have h1 := string_append_left_cancel h'
    have h2 := string_append_left_cancel h1
    have h3 := string_append_left_cancel h2
    have h4 := string_append_left_cancel h3
    have h5 := string_append_left_cancel h4
    have h6 := string_append_left_cancel h5
    have h7 := string_append_left_cancel h6
    have h8 := string_append_left_cancel h7
    have h9 := string_append_left_cancel h8
    have h10 := string_append_left_cancel h9
    have h11 := string_append_left_cancel h10
    have h12 := string_append_left_cancel h11
    have h13 := string_append_left_cancel h12
    exact quote_append_cancel h13

theorem C5_hash_deterministic_and_field_sensitive_witness :
    buildTranslationCacheHashWith id
        ⟨"openai", some "gpt-4o-mini", some "", "en", "zh-CN",
         none, "Hello world"⟩ =
      buildTranslationCacheHashWith id
        ⟨"openai", some "gpt-4o-mini", none, "en", "zh-CN",
         none, "Hello world"⟩ :=
  (C5_hash_deterministic_and_field_sensitive id (fun _ _ h => h)
      ⟨"openai", some "gpt-4o-mini", some "", "en", "zh-CN",
       none, "Hello world"⟩ "" none).1
    ⟨"openai", some "gpt-4o-mini", none, "en", "zh-CN",
     none, "Hello world"⟩ rfl


/-! ## C9: the walkers only emit non-blank text

Every path that appends to the output goes through `pushSeg`, which drops
strings that are empty after trimming.  `pairsOk` states the invariant; it is
propagated through the three walker families (functional induction for the
`blocks` / `json` families, strong induction on `sizeOf` for the mutual
schema-directed family). -/


def pairsOk (l : List (Path × String)) : Bool :=
  l.all (fun ps => ps.2.trim.length != 0)

theorem pairsOk_pushSeg (p : Path) (t : String) : pairsOk (pushSeg p t) = true := by
  unfold pushSeg pairsOk
  split
  · rfl
  · simp_all [List.all]

theorem pairsOk_append (a b : List (Path × String)) :
    pairsOk (a ++ b) = (pairsOk a && pairsOk b) := by
  simp [pairsOk, List.all_append]

theorem pairsOk_walkBlocks : ∀ (v : JValue) (p : Path), pairsOk (walkBlocks v p) = true := by
  refine walkBlocks.induct
    (fun v p => pairsOk (walkBlocks v p) = true)
    (fun fields p => pairsOk (walkBlocksFields fields p) = true)
    (fun items i p => pairsOk (walkBlocksItems items i p) = true)
    ?_ ?_ ?_ ?_ ?_ ?_ ?_ ?_ ?_
  · intro basePath s
    rw [walkBlocks.eq_def]
    rfl
  · intro basePath items ih
    rw [walkBlocks.eq_def]
    exact ih
  · intro basePath fields ih
    rw [walkBlocks.eq_def]
    exact ih
  · intro value basePath h1 h2 h3
    cases value with
    | str s => exact absurd rfl (fun h => h1 _ h)
    | arr items => exact absurd rfl (fun h => h2 _ h)
    | obj fields => exact absurd rfl (fun h => h3 _ h)
    | num q => rw [walkBlocks.eq_def]; rfl
    | bool b => rw [walkBlocks.eq_def]; rfl
    | null => rw [walkBlocks.eq_def]; rfl
  · intro basePath
    rw [walkBlocksFields.eq_def]
    rfl
  · intro basePath k s rest ih1 ih2
    rw [walkBlocksFields.eq_def]
    simp only [pairsOk_append]
    rw [ih2]
    split
    · rw [pairsOk_pushSeg]; rfl
    · rw [ih1]; rfl
  · intro basePath k child rest hns ih1 ih2
    rw [walkBlocksFields.eq_def]
    cases child with
    | str s => exact absurd rfl (fun h => hns _ h)
    | _ => simp only [pairsOk_append]; rw [ih1, ih2]; rfl
  · intro i basePath
    rw [walkBlocksItems.eq_def]
    rfl
  · intro i basePath item rest ih1 ih2
    rw [walkBlocksItems.eq_def]
    simp only [pairsOk_append]
    rw [ih1, ih2]
    rfl

theorem pairsOk_walkJson : ∀ (v : JValue) (p : Path), pairsOk (walkJson v p) = true := by
  refine walkJson.induct
    (fun v p => pairsOk (walkJson v p) = true)
    (fun fields p => pairsOk (walkJsonFields fields p) = true)
    (fun items i p => pairsOk (walkJsonItems items i p) = true)
    ?_ ?_ ?_ ?_ ?_ ?_ ?_ ?_
  · intro basePath s
    rw [walkJson.eq_def]
    exact pairsOk_pushSeg _ _
  · intro basePath items ih
    rw [walkJson.eq_def]
    exact ih
  · intro basePath fields ih
    rw [walkJson.eq_def]
    exact ih
  · intro value basePath h1 h2 h3
    cases value with
    | str s => exact absurd rfl (fun h => h1 _ h)
    | arr items => exact absurd rfl (fun h => h2 _ h)
    | obj fields => exact absurd rfl (fun h => h3 _ h)
    | num q => rw [walkJson.eq_def]; rfl
    | bool b => rw [walkJson.eq_def]; rfl
    | null => rw [walkJson.eq_def]; rfl
  · intro basePath
    rw [walkJsonFields.eq_def]
    rfl
  · intro basePath k child rest ih1 ih2
    rw [walkJsonFields.eq_def]
    simp only [pairsOk_append]
    rw [ih1, ih2]
    rfl
  · intro i basePath
    rw [walkJsonItems.eq_def]
    rfl
  · intro i basePath item rest ih1 ih2
    rw [walkJsonItems.eq_def]
    simp only [pairsOk_append]
    rw [ih1, ih2]
    rfl

theorem pairsOk_walkMediaItem (item : JValue) (itemPath : Path) :
    pairsOk (walkMediaItem item itemPath) = true := by
  cases item with
  | obj fields =>
    rw [walkMediaItem]
    simp only [pairsOk_append, Bool.and_eq_true]
    constructor
    · split
      · exact pairsOk_pushSeg _ _
      · rfl
    · split
      · exact pairsOk_pushSeg _ _
      · rfl
  | _ => rfl

theorem pairsOk_walkMediaItems (items : List JValue) :
    ∀ (i : Nat) (basePath : Path), pairsOk (walkMediaItems items i basePath) = true := by
  induction items with
  | nil => intro i basePath; rfl
  | cons item rest ih =>
    intro i basePath
    rw [walkMediaItems]
    simp only [pairsOk_append, Bool.and_eq_true]
    exact ⟨pairsOk_walkMediaItem _ _, ih _ _⟩

theorem pairsOk_walkMediaValue (value : JValue) (basePath : Path) :
    pairsOk (walkMediaValue value basePath) = true := by
  cases value with
  | arr items => rw [walkMediaValue]; exact pairsOk_walkMediaItems _ _ _
  | obj fields =>
    rw [walkMediaValue]
    split
    · exact pairsOk_walkMediaItems _ _ _
    · exact pairsOk_walkMediaItem _ _
    · exact pairsOk_walkMediaItem _ _
  | str s => unfold walkMediaValue; exact pairsOk_walkMediaItem _ _
  | num q => unfold walkMediaValue; exact pairsOk_walkMediaItem _ _
  | bool b => unfold walkMediaValue; exact pairsOk_walkMediaItem _ _
  | null => unfold walkMediaValue; exact pairsOk_walkMediaItem _ _

theorem pairsOk_walk_aux : ∀ n : Nat,
    (∀ (ij : Bool) (comps : ComponentsDictionary) (attrs : List (String × Attribute))
        (fields : List (String × JValue)) (basePath : Path), sizeOf fields ≤ n →
      pairsOk (walkSchemaAttrs ij comps attrs fields basePath) = true) ∧
    (∀ (ij : Bool) (comps : ComponentsDictionary) (cschema : Schema)
        (value : JValue) (basePath : Path), sizeOf value ≤ n →
      pairsOk (walkSchema ij comps cschema value basePath) = true) ∧
    (∀ (ij : Bool) (comps : ComponentsDictionary) (cschema : Schema)
        (items : List JValue) (i : Nat) (basePath : Path), sizeOf items ≤ n →
      pairsOk (walkCompItems ij comps cschema items i basePath) = true) ∧
    (∀ (ij : Bool) (comps : ComponentsDictionary) (items : List JValue)
        (i : Nat) (basePath : Path), sizeOf items ≤ n →
      pairsOk (walkDZItems ij comps items i basePath) = true) ∧
    (∀ (ij : Bool) (comps : ComponentsDictionary) (attr : Attribute)
        (value : JValue) (basePath : Path), sizeOf value ≤ n →
      pairsOk (walkByAttribute ij comps attr value basePath) = true) := by
  intro n
  induction n using Nat.strong_induction_on with
  | _ n ih =>
  have hSattrs : ∀ (ij : Bool) (comps : ComponentsDictionary)
      (attrs : List (String × Attribute)) (fields : List (String × JValue))
      (basePath : Path), sizeOf fields ≤ n →
      pairsOk (walkSchemaAttrs ij comps attrs fields basePath) = true := by
    intro ij comps attrs fields basePath hle
    induction attrs with
    | nil => rw [walkSchemaAttrs.eq_def]; rfl
    | cons ka rest iha =>
      obtain ⟨key, attr⟩ := ka
      rw [walkSchemaAttrs.eq_def]
      simp only [pairsOk_append, Bool.and_eq_true]
      refine ⟨?_, iha⟩
      split
      · rename_i child hchild
        have hlt : sizeOf child < n := lt_of_lt_of_le (sizeOf_jget hchild) hle
        exact (ih _ hlt).2.2.2.2 ij comps attr child _ le_rfl
      · rfl
  have hS : ∀ (ij : Bool) (comps : ComponentsDictionary) (cschema : Schema)
      (value : JValue) (basePath : Path), sizeOf value ≤ n →
      pairsOk (walkSchema ij comps cschema value basePath) = true := by
    intro ij comps cschema value basePath hle
    rw [walkSchema.eq_def]
    cases value with
    | obj fields =>
      have hf : sizeOf fields ≤ n := by
        have := JValue.obj.sizeOf_spec fields
        omega
      exact hSattrs ij comps _ fields basePath hf
    | str s => rfl
    | num q => rfl
    | bool b => rfl
    | null => rfl
    | arr items => rfl
  have hCI : ∀ (ij : Bool) (comps : ComponentsDictionary) (cschema : Schema)
      (items : List JValue) (i : Nat) (basePath : Path), sizeOf items ≤ n →
      pairsOk (walkCompItems ij comps cschema items i basePath) = true := by
    intro ij comps cschema items
    induction items with
    | nil => intro i basePath hle; rw [walkCompItems.eq_def]; rfl
    | cons item rest ihi =>
      intro i basePath hle
      rw [walkCompItems.eq_def]
      simp only [pairsOk_append, Bool.and_eq_true]
      have hsz := List.cons.sizeOf_spec item rest
      exact ⟨hS ij comps cschema item _ (by omega), ihi _ basePath (by omega)⟩
  have hDZ : ∀ (ij : Bool) (comps : ComponentsDictionary) (items : List JValue)
      (i : Nat) (basePath : Path), sizeOf items ≤ n →
      pairsOk (walkDZItems ij comps items i basePath) = true := by
    intro ij comps items
    induction items with
    | nil => intro i basePath hle; rw [walkDZItems.eq_def]; rfl
    | cons item rest ihi =>
      intro i basePath hle
      rw [walkDZItems.eq_def]
      simp only [pairsOk_append, Bool.and_eq_true]
      have hsz := List.cons.sizeOf_spec item rest
      refine ⟨?_, ihi _ basePath (by omega)⟩
      split
      · rename_i fields
        split
        · split
          · split
            · have hf : sizeOf (JValue.obj fields) ≤ n := by
                have h1 := List.cons.sizeOf_spec (JValue.obj fields) rest
                omega
              exact hS ij comps _ _ _ hf
            · rfl
          · rfl
        · rfl
      · rfl
  have hBA : ∀ (ij : Bool) (comps : ComponentsDictionary) (attr : Attribute)
      (value : JValue) (basePath : Path), sizeOf value ≤ n →
      pairsOk (walkByAttribute ij comps attr value basePath) = true := by
    intro ij comps attr value basePath hle
    rw [walkByAttribute.eq_def]
    split
    · rfl
    · split
      · split
        · exact pairsOk_pushSeg _ _
        · rfl
      · split
        · exact pairsOk_pushSeg _ _
        · rfl
      · split
        · exact pairsOk_pushSeg _ _
        · rfl
      · exact pairsOk_walkBlocks _ _
      · split
        · exact pairsOk_walkJson _ _
        · rfl
      · exact pairsOk_walkMediaValue _ _
      · split
        · split
          · split
            · split
              · rename_i items hnull
                have hi : sizeOf items ≤ n := by
                  have := JValue.arr.sizeOf_spec items
                  omega
                exact hCI ij comps _ items 0 basePath hi
              · rfl
            · exact hS ij comps _ value basePath hle
          · rfl
        · rfl
      · split
        · rename_i items hnull
          have hi : sizeOf items ≤ n := by
            have := JValue.arr.sizeOf_spec items
            omega
          exact hDZ ij comps items 0 basePath hi
        · rfl
      · rfl
  exact ⟨hSattrs, hS, hCI, hDZ, hBA⟩

theorem pairsOk_walkByAttribute (ij : Bool) (comps : ComponentsDictionary)
    (attr : Attribute) (value : JValue) (basePath : Path) :
    pairsOk (walkByAttribute ij comps attr value basePath) = true :=
  (pairsOk_walk_aux (sizeOf value)).2.2.2.2 ij comps attr value basePath le_rfl

theorem pairsOk_collect_foldl (ij : Bool) (comps : ComponentsDictionary)
    (data : List (String × JValue)) :
    ∀ (l : List (String × Attribute)) (acc : List (Path × String)),
      pairsOk acc = true →
      pairsOk (l.foldl
        (fun acc p =>
          if isAttributeLocalized p.2 then
            acc ++
              (match jget data p.1 with
               | some v => walkByAttribute ij comps p.2 v [.key p.1]
               | none => [])
          else acc) acc) = true := by
  intro l
  induction l with
  | nil => intro acc h; exact h
  | cons p rest ihl =>
    intro acc h
    rw [List.foldl_cons]
    apply ihl
    split
    · rw [pairsOk_append, h]
      simp only [Bool.true_and]
      split
      · exact pairsOk_walkByAttribute _ _ _ _ _
      · rfl
    · exact h

theorem snd_mem_of_mem_enumFrom {α : Type} :
    ∀ (l : List α) (n : Nat) (q : Nat × α), q ∈ l.enumFrom n → q.2 ∈ l := by
  intro l
  induction l with
  | nil => intro n q h; simp [List.enumFrom] at h
  | cons a t ihl =>
    intro n q h
    rw [List.enumFrom] at h
    rcases List.mem_cons.1 h with h1 | h2
    · subst h1; exact List.mem_cons_self _ _
    · exact List.mem_cons_of_mem _ (ihl _ _ h2)

/-- C9: every segment returned by `collectTranslatableSegments` has text that
is non-empty after trimming whitespace: `pushSegment` drops empty or
whitespace-only strings, and every emission site in the walkers (scalar text
fields, `text` keys inside block trees, strings inside json fields, media
`alternativeText` / `caption`) goes through it. -/
theorem C9_collected_segments_nonblank (schema : Schema)
    (comps : ComponentsDictionary) (localizedData : List (String × JValue))
    (includeJson : Bool) :
    (collectTranslatableSegments schema comps localizedData includeJson).all
      (fun s => s.text.trim.length != 0) = true := by
  have hraw := pairsOk_collect_foldl includeJson comps localizedData
    (schemaAttrs schema) [] rfl
  rw [pairsOk, List.all_eq_true] at hraw
  simp only [collectTranslatableSegments]
  rw [List.all_eq_true]
  intro s hs
  rw [List.mem_map] at hs
  obtain ⟨q, hq, rfl⟩ := hs
  have hq2 := snd_mem_of_mem_enumFrom _ _ _ hq
  exact hraw q.2 hq2


/-! ## C2: the sanitizer removes instance-identity keys, and only those

`checkByAttribute` mirrors the sanitizer's traversal over its *output*: every
component record reachable through component / dynamiczone attributes carries
none of the six instance keys.  Scalar attributes (media and relation
references included) are untouched by construction. -/

mutual

/-- checker for C2: every component sub-record reachable from `value` through
the attribute carries none of the six instance-identity keys. -/
def checkByAttribute (comps : ComponentsDictionary) (attr : Attribute)
    (value : JValue) : Bool :=
  if isNullJ value then true
  else
    match attr with
    | .component uid repeatable _ =>
      match lookupComponent comps uid with
      | some cschema =>
        match cschema.attributes with
        | some _ =>
          if repeatable then
            match value with
            | .arr items => checkCompItems comps cschema items
            | _ => true
          else checkComponentValue comps cschema value
        | none => true
      | none => true
    | .dynamiczone _ _ =>
      match value with
      | .arr items => checkDZItems comps items
      | _ => true
    | .scalar _ _ => true
termination_by (sizeOf value, 3, 0)

/-- checker over a repeatable component's items. -/
def checkCompItems (comps : ComponentsDictionary) (cschema : Schema)
    (items : List JValue) : Bool :=
  match items with
  | [] => true
  | item :: rest =>
    checkComponentValue comps cschema item && checkCompItems comps cschema rest
termination_by (sizeOf items, 2, 0)

/-- checker over dynamiczone items: items whose `__component` resolves to a
schema with attributes are checked as component records. -/
def checkDZItems (comps : ComponentsDictionary) (items : List JValue) : Bool :=
  match items with
  | [] => true
  | item :: rest =>
    (match item with
     | .obj fields =>
       match jget fields "__component" with
       | some (.str uid) =>
         match lookupComponent comps uid with
         | some cschema =>
           match cschema.attributes with
           | some _ => checkComponentValue comps cschema (.obj fields)
           | none => true
         | none => true
       | _ => true
     | _ => true) && checkDZItems comps rest
termination_by (sizeOf items, 2, 0)

/-- checker for a component record: none of the six keys is present, and the
fields covered by the component schema's attributes check recursively. -/
def checkComponentValue (comps : ComponentsDictionary) (cschema : Schema)
    (value : JValue) : Bool :=
  match value with
  | .obj fields =>
    instanceKeys.all (fun k => (jget fields k).isNone) &&
      checkFields comps (schemaAttrs cschema) fields
  | _ => true
termination_by (sizeOf value, 1, 0)

/-- field loop of `checkComponentValue`. -/
def checkFields (comps : ComponentsDictionary) (attrs : List (String × Attribute))
    (fields : List (String × JValue)) : Bool :=
  match fields with
  | [] => true
  | (k, x) :: rest =>
    (match recGet attrs k with
     | some a => checkByAttribute comps a x
     | none => true) && checkFields comps attrs rest
termination_by (sizeOf fields, 0, 0)

end

theorem stripByAttribute_scalar (comps : ComponentsDictionary) (st : ScalarType)
    (loc : Bool) (v : JValue) : stripByAttribute comps (.scalar st loc) v = v := by
  rw [stripByAttribute.eq_def]
  split
  · rfl
  · simp only []

theorem stripComponentValue_obj (comps : ComponentsDictionary) (cschema : Schema)
    (fields : List (String × JValue)) :
    stripComponentValue comps cschema (.obj fields) =
      .obj (stripFields comps (schemaAttrs cschema) (removeInstanceKeys fields)) := by
  rw [stripComponentValue.eq_def]

theorem stripByAttribute_str (comps : ComponentsDictionary) (a : Attribute)
    (s : String) : stripByAttribute comps a (.str s) = .str s := by
  cases a with
  | scalar st loc => exact stripByAttribute_scalar comps st loc _
  | component uid rep loc =>
    rw [stripByAttribute.eq_def]
    rw [if_neg (by simp [isNullJ])]
    simp only []
    cases hlk : lookupComponent comps uid with
    | none => simp only []
    | some cschema =>
      simp only []
      cases hat : cschema.attributes with
      | none => simp only []
      | some attrs =>
        simp only []
        cases rep with
        | false =>
          rw [if_neg (by simp)]
          rw [stripComponentValue.eq_def]
        | true =>
          rw [if_pos rfl]
  | dynamiczone cs loc =>
    rw [stripByAttribute.eq_def]
    rw [if_neg (by simp [isNullJ])]

theorem jget_removeInstanceKeys_none (fields : List (String × JValue))
    (k : String) (hk : instanceKeys.contains k = true) :
    jget (removeInstanceKeys fields) k = none := by
  induction fields with
  | nil => rfl
  | cons p rest ih =>
    rw [removeInstanceKeys, List.filter_cons]
    by_cases hp : instanceKeys.contains p.1 = true
    · simp only [hp, Bool.not_true, if_false]
      exact ih
    · have hne : ¬ (p.1 = k) := fun h => hp (by rw [h]; exact hk)
      simp only [Bool.not_eq_true] at hp
      simp only [hp, Bool.not_false, if_true]
      rw [jget, if_neg hne]
      exact ih

theorem jget_removeInstanceKeys_other (fields : List (String × JValue))
    (k : String) (hk : instanceKeys.contains k = false) :
    jget (removeInstanceKeys fields) k = jget fields k := by
  induction fields with
  | nil => rfl
  | cons p rest ih =>
    rw [removeInstanceKeys, List.filter_cons]
    by_cases hp : instanceKeys.contains p.1 = true
    · have hne : ¬ (p.1 = k) := by
        intro h
        rw [h, hk] at hp
        exact Bool.noConfusion hp
      rw [hp]
      rw [if_neg (by simp)]
      have ih' : jget (List.filter (fun p => !instanceKeys.contains p.1) rest) k =
          jget rest k := ih
      rw [ih']
      conv_rhs => rw [jget]
      rw [if_neg hne]
    · simp only [Bool.not_eq_true] at hp
      rw [hp]
      rw [if_pos (by simp)]
      rw [jget]
      conv_rhs => rw [jget]
      by_cases h : p.1 = k
      · rw [if_pos h, if_pos h]
      · rw [if_neg h, if_neg h]
        exact ih

theorem jget_stripFields (comps : ComponentsDictionary)
    (attrs : List (String × Attribute)) (fields : List (String × JValue))
    (k : String) :
    jget (stripFields comps attrs fields) k =
      (jget fields k).map (fun x =>
        match recGet attrs k with
        | some a => stripByAttribute comps a x
        | none => x) := by
  induction fields with
  | nil => rw [stripFields.eq_def]; rfl
  | cons kx rest ih =>
    obtain ⟨k', x⟩ := kx
    rw [stripFields.eq_def]
    simp only []
    by_cases h : k' = k
    · subst h
      rw [jget, if_pos rfl]
      conv_rhs => rw [jget]
      rw [if_pos rfl]
      rfl
    · rw [jget, if_neg h]
      conv_rhs => rw [jget]
      rw [if_neg h]
      exact ih

theorem checkComponentValue_obj (comps : ComponentsDictionary) (cschema : Schema)
    (fields : List (String × JValue)) :
    checkComponentValue comps cschema (.obj fields) =
      (instanceKeys.all (fun k => (jget fields k).isNone) &&
        checkFields comps (schemaAttrs cschema) fields) := by
  rw [checkComponentValue.eq_def]

theorem checkByAttribute_scalar (comps : ComponentsDictionary) (st : ScalarType)
    (loc : Bool) (v : JValue) : checkByAttribute comps (.scalar st loc) v = true := by
  rw [checkByAttribute.eq_def]
  split
  · rfl
  · simp only []

theorem checkByAttribute_component (comps : ComponentsDictionary) (uid : String)
    (rep loc : Bool) (v : JValue) :
    checkByAttribute comps (.component uid rep loc) v =
      (if isNullJ v then true
       else
         match lookupComponent comps uid with
         | some cschema =>
           match cschema.attributes with
           | some _ =>
             if rep then
               match v with
               | .arr items => checkCompItems comps cschema items
               | _ => true
             else checkComponentValue comps cschema v
           | none => true
         | none => true) := by
  rw [checkByAttribute.eq_def]

theorem checkByAttribute_dynamiczone (comps : ComponentsDictionary)
    (cs : List String) (loc : Bool) (v : JValue) :
    checkByAttribute comps (.dynamiczone cs loc) v =
      (if isNullJ v then true
       else
         match v with
         | .arr items => checkDZItems comps items
         | _ => true) := by
  rw [checkByAttribute.eq_def]

theorem isNullJ_stripComponentValue (comps : ComponentsDictionary)
    (cschema : Schema) (value : JValue) :
    isNullJ (stripComponentValue comps cschema value) = isNullJ value := by
  rw [stripComponentValue.eq_def]
  split
  · rfl
  · rfl

theorem check_strip_aux : ∀ n : Nat,
    (∀ (comps : ComponentsDictionary) (attrs : List (String × Attribute))
        (fields : List (String × JValue)), sizeOf fields ≤ n →
      checkFields comps attrs (stripFields comps attrs fields) = true) ∧
    (∀ (comps : ComponentsDictionary) (cschema : Schema) (value : JValue),
        sizeOf value ≤ n →
      checkComponentValue comps cschema
        (stripComponentValue comps cschema value) = true) ∧
    (∀ (comps : ComponentsDictionary) (cschema : Schema) (items : List JValue),
        sizeOf items ≤ n →
      checkCompItems comps cschema (stripCompItems comps cschema items) = true) ∧
    (∀ (comps : ComponentsDictionary) (items : List JValue), sizeOf items ≤ n →
      checkDZItems comps (stripDZItems comps items) = true) ∧
    (∀ (comps : ComponentsDictionary) (attr : Attribute) (value : JValue),
        sizeOf value ≤ n →
      checkByAttribute comps attr (stripByAttribute comps attr value) = true) := by
  intro n
  induction n using Nat.strong_induction_on with
  | _ n ih =>
  have hCF : ∀ (comps : ComponentsDictionary) (attrs : List (String × Attribute))
      (fields : List (String × JValue)), sizeOf fields ≤ n →
      checkFields comps attrs (stripFields comps attrs fields) = true := by
    intro comps attrs fields
    induction fields with
    | nil =>
      intro hle
      rw [stripFields.eq_def]
      rw [checkFields.eq_def]
    | cons kx rest ihf =>
      intro hle
      obtain ⟨k, x⟩ := kx
      rw [stripFields.eq_def]
      simp only []
      rw [checkFields.eq_def]
      simp only []
      rw [Bool.and_eq_true]
      constructor
      · cases hrec : recGet attrs k with
        | some a =>
          simp only []
          have hx : sizeOf x < n := by
            have h1 := List.cons.sizeOf_spec (k, x) rest
            have h2 := Prod.mk.sizeOf_spec k x
            omega
          exact (ih _ hx).2.2.2.2 comps a x le_rfl
        | none => simp only []
      · apply ihf
        have h1 := List.cons.sizeOf_spec (k, x) rest
        omega
  have hCV : ∀ (comps : ComponentsDictionary) (cschema : Schema) (value : JValue),
      sizeOf value ≤ n →
      checkComponentValue comps cschema
        (stripComponentValue comps cschema value) = true := by
    intro comps cschema value hle
    rw [stripComponentValue.eq_def]
    split
    · rename_i fields
      rw [checkComponentValue_obj]
      rw [Bool.and_eq_true]
      constructor
      · rw [List.all_eq_true]
        intro k hk
        have hk2 : instanceKeys.contains k = true := by simpa using hk
        have h1 := jget_removeInstanceKeys_none fields k hk2
        have h2 := jget_stripFields comps (schemaAttrs cschema)
          (removeInstanceKeys fields) k
        rw [h1] at h2
        simp at h2
        simp only [h2, Option.isNone_none]
      · apply hCF
        have h3 := sizeOf_filter_le (fun p => !(instanceKeys.contains p.1)) fields
        have h4 := JValue.obj.sizeOf_spec fields
        simp only [removeInstanceKeys]
        omega
    · rename_i hno
      rw [checkComponentValue.eq_def]
      split
      · rename_i fields2
        exact absurd rfl (hno fields2)
      · rfl
  have hCI : ∀ (comps : ComponentsDictionary) (cschema : Schema)
      (items : List JValue), sizeOf items ≤ n →
      checkCompItems comps cschema (stripCompItems comps cschema items) = true := by
    intro comps cschema items
    induction items with
    | nil =>
      intro hle
      rw [stripCompItems.eq_def]
      rw [checkCompItems.eq_def]
    | cons item rest ihs =>
      intro hle
      rw [stripCompItems.eq_def]
      simp only []
      rw [checkCompItems.eq_def]
      simp only []
      rw [Bool.and_eq_true]
      have h1 := List.cons.sizeOf_spec item rest
      exact ⟨hCV comps cschema item (by omega), ihs (by omega)⟩
  have hDZ : ∀ (comps : ComponentsDictionary) (items : List JValue),
      sizeOf items ≤ n →
      checkDZItems comps (stripDZItems comps items) = true := by
    intro comps items
    induction items with
    | nil =>
      intro hle
      rw [stripDZItems.eq_def]
      rw [checkDZItems.eq_def]
    | cons item rest ihd =>
      intro hle
      rw [stripDZItems.eq_def]
      simp only []
      rw [checkDZItems.eq_def]
      simp only []
      rw [Bool.and_eq_true]
      have h1 := List.cons.sizeOf_spec item rest
      refine ⟨?_, ihd (by omega)⟩
      cases item with
      | obj fields =>
        simp only []
        cases hj : jget fields "__component" with
        | none =>
          simp only []
          rw [hj]
        | some v =>
          cases v with
          | str uid =>
            simp only []
            cases hlk : lookupComponent comps uid with
            | none =>
              simp only []
              rw [hj]
              simp only []
              rw [hlk]
            | some cschema =>
              simp only []
              cases hat : cschema.attributes with
              | none =>
                simp only []
                rw [hj]
                simp only []
                rw [hlk]
                simp only []
                rw [hat]
              | some attrs2 =>
                simp only []
                rw [stripComponentValue_obj]
                simp only []
                have hcomp : jget (stripFields comps (schemaAttrs cschema)
                    (removeInstanceKeys fields)) "__component" = some (.str uid) := by
                  rw [jget_stripFields,
                    jget_removeInstanceKeys_other fields _ (by rfl), hj]
                  simp
                  cases hr : recGet (schemaAttrs cschema) "__component" with
                  | none => simp only []
                  | some a =>
                    simp only []
                    rw [stripByAttribute_str]
                rw [hcomp]
                simp only []
                rw [hlk]
                simp only []
                rw [hat]
                simp only []
                have hb : sizeOf (JValue.obj fields) ≤ n := by
                  have h2 := List.cons.sizeOf_spec (JValue.obj fields) rest
                  omega
                have hres := hCV comps cschema (.obj fields) hb
                rw [stripComponentValue_obj] at hres
                exact hres
          | num q => simp only []; rw [hj]
          | bool b => simp only []; rw [hj]
          | null => simp only []; rw [hj]
          | arr its => simp only []; rw [hj]
          | obj f2 => simp only []; rw [hj]
      | str s => simp only []
      | num q => simp only []
      | bool b => simp only []
      | null => simp only []
      | arr its => simp only []
  have hBA : ∀ (comps : ComponentsDictionary) (attr : Attribute) (value : JValue),
      sizeOf value ≤ n →
      checkByAttribute comps attr (stripByAttribute comps attr value) = true := by
    intro comps attr value hle
    rw [stripByAttribute.eq_def]
    split
    · rename_i hnull
      cases attr with
      | scalar st loc => rw [checkByAttribute_scalar]
      | component uid rep loc =>
        rw [checkByAttribute_component]
        rw [if_pos hnull]
      | dynamiczone cs loc =>
        rw [checkByAttribute_dynamiczone]
        rw [if_pos hnull]
    · rename_i hnull
      split
      · rename_i uid rep loc
        cases hlk : lookupComponent comps uid with
        | none =>
          simp only []
          rw [checkByAttribute_component, if_neg hnull, hlk]
        | some cschema =>
          simp only []
          cases hat : cschema.attributes with
          | none =>
            simp only []
            rw [checkByAttribute_component, if_neg hnull, hlk]
            simp only []
            rw [hat]
          | some attrs2 =>
            simp only []
            cases rep with
            | true =>
              rw [if_pos rfl]
              cases value with
              | arr items =>
                simp only []
                rw [checkByAttribute_component]
                rw [if_neg (by simp [isNullJ])]
                rw [hlk]
                simp only []
                rw [hat]
                simp only []
                simp only [if_true]
                have hi : sizeOf items ≤ n := by
                  have h2 := JValue.arr.sizeOf_spec items
                  omega
                exact hCI comps cschema items hi
              | str sv =>
                simp only []
                rw [checkByAttribute_component, if_neg hnull, hlk]
                simp only []
                rw [hat]
                simp only []
                simp only [if_true]
              | num q =>
                simp only []
                rw [checkByAttribute_component, if_neg hnull, hlk]
                simp only []
                rw [hat]
                simp only []
                simp only [if_true]
              | bool b =>
                simp only []
                rw [checkByAttribute_component, if_neg hnull, hlk]
                simp only []
                rw [hat]
                simp only []
                simp only [if_true]
              | null =>
                simp only []
                rw [checkByAttribute_component, if_neg hnull, hlk]
                simp only []
                rw [hat]
                simp only []
                simp only [if_true]
              | obj f2 =>
                simp only []
                rw [checkByAttribute_component, if_neg hnull, hlk]
                simp only []
                rw [hat]
                simp only []
                simp only [if_true]
            | false =>
              rw [if_neg (by simp)]
              rw [checkByAttribute_component]
              rw [if_neg (by rw [isNullJ_stripComponentValue]; exact hnull)]
              rw [hlk]
              simp only []
              rw [hat]
              simp only []
              rw [if_neg (by simp)]
              exact hCV comps cschema value hle
      · rename_i cs loc
        cases value with
        | arr items =>
          simp only []
          rw [checkByAttribute_dynamiczone]
          rw [if_neg (by simp [isNullJ])]
          simp only []
          have hi : sizeOf items ≤ n := by
            have h2 := JValue.arr.sizeOf_spec items
            omega
          exact hDZ comps items hi
        | str sv => simp only []; rw [checkByAttribute_dynamiczone, if_neg hnull]
        | num q => simp only []; rw [checkByAttribute_dynamiczone, if_neg hnull]
        | bool b => simp only []; rw [checkByAttribute_dynamiczone, if_neg hnull]
        | null => simp only []; rw [checkByAttribute_dynamiczone, if_neg hnull]
        | obj f2 => simp only []; rw [checkByAttribute_dynamiczone, if_neg hnull]
      · rename_i st loc
        rw [checkByAttribute_scalar]
  exact ⟨hCF, hCV, hCI, hDZ, hBA⟩

theorem checkByAttribute_stripByAttribute (comps : ComponentsDictionary)
    (attr : Attribute) (value : JValue) :
    checkByAttribute comps attr (stripByAttribute comps attr value) = true :=
  (check_strip_aux (sizeOf value)).2.2.2.2 comps attr value le_rfl

/-- C2 counterexample to the unrestricted reading: a top-level component
attribute whose `localized` flag is false is skipped by
`stripComponentInstanceIds`, so a component instance id under it survives. -/
theorem C2_counterexample_nonlocalized_component_keeps_id :
    stripComponentInstanceIds
        ⟨true, some [("c", .component "comp" false false)]⟩
        [("comp", ⟨false, some []⟩)]
        [("c", .obj [("id", .str "1")])] =
      [("c", .obj [("id", .str "1")])] ∧
    jget [("id", JValue.str "1")] "id" = some (.str "1") := by
  constructor
  · rfl
  · rfl

/-- C2 (amended to the localized top-level attributes the source visits):
`stripComponentInstanceIds` keeps the top-level keys unchanged, leaves every
scalar-typed attribute value (in particular `media` and `relation` references,
ids included) untouched, and below every localized top-level attribute every
component sub-record reached through component or dynamiczone attributes
(recursively through nested components) carries none of the keys `id`,
`createdAt`, `updatedAt`, `publishedAt`, `createdBy`, `updatedBy`. -/
theorem C2_strip_removes_instance_ids (schema : Schema)
    (comps : ComponentsDictionary) (localizedData : List (String × JValue)) :
    ((stripComponentInstanceIds schema comps localizedData).map Prod.fst =
      localizedData.map Prod.fst) ∧
    (∀ (st : ScalarType) (localized : Bool) (v : JValue),
      stripByAttribute comps (.scalar st localized) v = v) ∧
    ((stripComponentInstanceIds schema comps localizedData).all
      (fun p =>
        match recGet (schemaAttrs schema) p.1 with
        | some attr =>
          if isAttributeLocalized attr then checkByAttribute comps attr p.2
          else true
        | none => true) = true) := by
  refine ⟨?_, ?_, ?_⟩
  · rw [stripComponentInstanceIds, List.map_map]
    apply List.map_congr_left
    intro p hp
    simp only [Function.comp_apply]
    cases hr : recGet (schemaAttrs schema) p.1 with
    | none => simp only []
    | some attr =>
      simp only []
      split <;> rfl
  · intro st localized v
    exact stripByAttribute_scalar comps st localized v
  · rw [stripComponentInstanceIds, List.all_eq_true]
    intro p hp
    rw [List.mem_map] at hp
    obtain ⟨q, hq, rfl⟩ := hp
    cases hr : recGet (schemaAttrs schema) q.1 with
    | none =>
      simp only []
      rw [hr]
    | some attr =>
      simp only []
      by_cases hloc : isAttributeLocalized attr = true
      · rw [if_pos hloc]
        simp only []
        rw [hr]
        simp only []
        rw [if_pos hloc]
        exact checkByAttribute_stripByAttribute comps attr q.2
      · rw [if_neg hloc]
        rw [hr]
        simp only []
        rw [if_neg hloc]


/-! ## C6: merge-loop write semantics

`applyAtPath` rebuilds the clone along the path; writing back the child that
was just read is the identity, which gives the silent skip on unresolvable
prefixes, and a resolvable full path is overwritten with the translation. -/

theorem list_set_get_self : ∀ (l : List JValue) (n : Nat) (c : JValue),
    l.get? n = some c → l.set n c = l := by
  intro l
  induction l with
  | nil => intro n c h; simp [List.get?] at h
  | cons a t ihl =>
    intro n c h
    cases n with
    | zero =>
      simp [List.get?] at h
      subst h
      rfl
    | succ m =>
      simp [List.get?] at h
      rw [List.set]
      rw [ihl m c (by simpa using h)]

theorem list_get_set_self : ∀ (l : List JValue) (n : Nat) (w : JValue),
    n < l.length → (l.set n w).get? n = some w := by
  intro l
  induction l with
  | nil => intro n w h; simp at h
  | cons a t ihl =>
    intro n w h
    cases n with
    | zero => rfl
    | succ m =>
      rw [List.set]
      simp only [List.get?]
      exact ihl m w (by simpa using h)

theorem jget_eq_recGet : ∀ (fields : List (String × JValue)) (k : String),
    jget fields k = recGet fields k := by
  intro fields k
  induction fields with
  | nil => rfl
  | cons p rest ih => rw [jget, recGet, ih]

theorem list_length_pos_of_get (l : List JValue) : ∀ (n : Nat) (c : JValue),
    l.get? n = some c → n < l.length := by
  induction l with
  | nil => intro n c h; simp [List.get?] at h
  | cons a t ihl =>
    intro n c h
    cases n with
    | zero => simp
    | succ m =>
      simp [List.get?] at h
      have h2 := ihl m c (by simpa using h)
      simpa using Nat.succ_lt_succ h2

theorem setChild_getChild_self {d : JValue} {k : PathStep} {c : JValue}
    (h : getChild d k = some c) : setChild d k c = d := by
  cases d with
  | arr items =>
    cases k with
    | idx n =>
      simp only [getChild] at h
      have hlt := list_length_pos_of_get items n c h
      simp only [setChild, listSetPad, if_pos hlt]
      rw [list_set_get_self items n c h]
    | key s => simp [getChild] at h
  | obj fields =>
    cases k with
    | idx n => simp [getChild] at h
    | key s =>
      simp only [getChild] at h
      simp only [setChild]
      have h2 : recGet fields s = some c := by rw [← jget_eq_recGet]; exact h
      rw [recSet_recGet_self h2]
  | str s => simp [getChild] at h
  | num q => simp [getChild] at h
  | bool b => simp [getChild] at h
  | null => simp [getChild] at h

theorem getChild_setChild_self {d : JValue} {k : PathStep} {c : JValue}
    (w : JValue) (h : getChild d k = some c) :
    getChild (setChild d k w) k = some w := by
  cases d with
  | arr items =>
    cases k with
    | idx n =>
      simp only [getChild] at h
      have hlt := list_length_pos_of_get items n c h
      simp only [setChild, listSetPad, if_pos hlt, getChild]
      exact list_get_set_self items n w hlt
    | key s => simp [getChild] at h
  | obj fields =>
    cases k with
    | idx n => simp [getChild] at h
    | key s =>
      simp only [getChild] at h
      simp only [setChild, getChild]
      rw [jget_eq_recGet]
      exact recGet_recSet_self fields s w
  | str s => simp [getChild] at h
  | num q => simp [getChild] at h
  | bool b => simp [getChild] at h
  | null => simp [getChild] at h

theorem applyAtPath_prefix_none :
    ∀ (path : Path) (d : JValue) (t : String),
      getPath d path.dropLast = none → applyAtPath d path t = d := by
  intro path
  induction path with
  | nil =>
    intro d t h
    simp [getPath] at h
  | cons k rest ihp =>
    intro d t h
    cases rest with
    | nil =>
      simp [List.dropLast, getPath] at h
    | cons k2 rest2 =>
      rw [applyAtPath.eq_def]
      simp only []
      have hdl : (k :: k2 :: rest2).dropLast = k :: (k2 :: rest2).dropLast := rfl
      rw [hdl] at h
      rw [getPath] at h
      cases hg : getChild d k with
      | none => simp only []
      | some c =>
        rw [hg] at h
        simp only []
        rw [ihp c t h]
        exact setChild_getChild_self hg

theorem applyAtPath_written :
    ∀ (path : Path) (d v : JValue) (t : String), path ≠ [] →
      getPath d path = some v →
      getPath (applyAtPath d path t) path = some (.str t) := by
  intro path
  induction path with
  | nil => intro d v t hne; exact absurd rfl hne
  | cons k rest ihp =>
    intro d v t _ h
    rw [getPath] at h
    cases hg : getChild d k with
    | none => rw [hg] at h; exact absurd h (by simp)
    | some c =>
      rw [hg] at h
      cases rest with
      | nil =>
        rw [applyAtPath.eq_def]
        simp only []
        rw [getPath]
        rw [getChild_setChild_self (.str t) hg]
        rfl
      | cons k2 rest2 =>
        rw [applyAtPath.eq_def]
        simp only []
        rw [hg]
        simp only []
        rw [getPath]
        rw [getChild_setChild_self (applyAtPath c (k2 :: rest2) t) hg]
        exact ihp c v t (by simp) h

/-- C6 counterexample to the unrestricted "every translated segment gets
written" reading: the path prefix resolves to a container (an array), but the
last path step is a string key, so `setChild` writes nothing and the tree is
returned unchanged. -/
theorem C6_counterexample_last_step_kind_mismatch :
    applySegmentTranslations (.obj [("a", .arr [.str "x"])])
        [⟨"0", [.key "a", .key "b"], "x"⟩] [("0", "T")] =
      .obj [("a", .arr [.str "x"])] ∧
    recGet [("0", "T")] "0" = some "T" ∧
    getPath (.obj [("a", .arr [.str "x"])]) [.key "a"] =
      some (.arr [.str "x"]) := by
  refine ⟨rfl, rfl, rfl⟩

/-- C6 (amended): the merge is a fold of per-segment writes over a rebuilt
copy; a segment without a string translation leaves the tree untouched, a
segment whose path prefix fails to resolve is silently skipped (the fold
continues with the remaining segments), and a segment whose full path resolves
in the tree gets its translation written at that path. -/
theorem C6_apply_translations_merge_semantics (d : JValue)
    (segs : List Segment) (m : List (String × String)) :
    (applySegmentTranslations d segs m = segs.foldl (applyOne m) d) ∧
    (∀ seg : Segment, recGet m seg.id = none → applyOne m d seg = d) ∧
    (∀ seg : Segment, getPath d seg.path.dropLast = none →
      applyOne m d seg = d) ∧
    (∀ (seg : Segment) (t : String) (v : JValue), recGet m seg.id = some t →
      seg.path ≠ [] → getPath d seg.path = some v →
      getPath (applyOne m d seg) seg.path = some (.str t)) := by
  refine ⟨rfl, ?_, ?_, ?_⟩
  · intro seg h
    rw [applyOne, h]
  · intro seg h
    rw [applyOne]
    cases hrec : recGet m seg.id with
    | none => simp only []
    | some t =>
      simp only []
      exact applyAtPath_prefix_none seg.path d t h
  · intro seg t v hrec hne h
    rw [applyOne, hrec]
    exact applyAtPath_written seg.path d v t hne h

theorem C6_apply_translations_merge_semantics_witness :
    getPath
        (applyOne [("0", "T")] (.obj [("a", .str "x")])
          ⟨"0", [.key "a"], "old"⟩)
        [.key "a"] = some (.str "T") :=
  (C6_apply_translations_merge_semantics (.obj [("a", .str "x")]) []
      [("0", "T")]).2.2.2
    ⟨"0", [.key "a"], "old"⟩ "T" (.str "x") rfl (by simp) rfl

end AiTranslate
